import Mathlib

/-!
Rate limiters of `rl/`: leaky bucket, token bucket and fixed-window throttle.

A shallow embedding of `rl/leaky_bucket/leaky_bucket.go`,
`rl/token_bucket/token_bucket.go` and `rl/fixed_window/throttle.go`.

* A `time.Time` is an instant on one timeline, counted in nanoseconds (`Int`).
* A `time.Duration` is an `int64` count of nanoseconds; `Time.Sub` saturates
  at the ends of that range, as the Go library documents.
* The clock reading `time.Now()` is an explicit argument of every operation.
* The mutex serialises the operations, so a run of concurrent callers is a
  list of operations, each applied to the state left by the previous one.
* An integer division by zero is a run-time panic: the result `none`.
* The token bucket has two embeddings. `token_bucket` computes in an exact ordered
  field, for the properties stated of exact arithmetic. `token_bucket64` computes in
  `float64`: every operation is rounded to the nearest value, ties to even, on its own
  (no fused multiply-add); overflow gives an infinity, `0 * Inf` and `Inf - Inf` give
  NaN, comparisons with NaN are false; the two zeros are identified, the code never
  dividing by a computed value.
* A `time.Ticker` keeps at most one tick ready to be received from `ticker.C`: ticks
  that come due while one is waiting are dropped, and after `Stop` no tick sent before
  the call is received (the timer channels of Go 1.23 and later).
-/

namespace time

/-- Largest `time.Duration`, `math.MaxInt64` nanoseconds. -/
def maxDuration : Int := 9223372036854775807

/-- Smallest `time.Duration`, `math.MinInt64` nanoseconds. -/
def minDuration : Int := -9223372036854775808

/-- One second as a `time.Duration` (`time.Second`). -/
def Second : Int := 1000000000

/-- Go `t.Sub(u)`: the duration `t - u`, saturated to the `int64` range. -/
def Sub (t u : Int) : Int :=
  if t - u > maxDuration then maxDuration
  else if t - u < minDuration then minDuration
  else t - u

/-- Go `t.Add(d)`: the instant `t + d`. -/
def Add (t d : Int) : Int := t + d

end time

/-- Two's complement wrap-around of a signed 64-bit result. -/
def wrapInt64 (x : Int) : Int :=
  (x + 9223372036854775808) % 18446744073709551616 - 9223372036854775808

namespace leaky_bucket

/-- The fields of `LeakyBucket` that the mutex guards, and the two it never writes. -/
structure LeakyBucket where
  capacity : Int
  leakRate : Int
  tokens : Int
  lastLeakTime : Int
deriving DecidableEq, Repr

/-- Go `NewLeakyBucket(capacity, requestsPerSecond)`, created at clock reading `now`. -/
def NewLeakyBucket (capacity requestsPerSecond : Int) (now : Int) : LeakyBucket :=
  { capacity := capacity
    leakRate :=
      if requestsPerSecond ≤ 0 then time.maxDuration
      else wrapInt64 (Int.tdiv time.Second requestsPerSecond)
    tokens := 0
    lastLeakTime := now }

/-- Go `lb.leak()` at clock reading `now`; `none` is the divide-by-zero panic of
`elapsed / lb.leakRate`, which precedes every write. -/
def LeakyBucket.leak (lb : LeakyBucket) (now : Int) : Option LeakyBucket :=
  let elapsed := time.Sub now lb.lastLeakTime
  if lb.leakRate = 0 then none
  else
    let leakedTokens := wrapInt64 (Int.tdiv elapsed lb.leakRate)
    if leakedTokens > 0 then
      some { lb with
        tokens := if leakedTokens > lb.tokens then 0 else lb.tokens - leakedTokens
        lastLeakTime := time.Add lb.lastLeakTime (wrapInt64 (leakedTokens * lb.leakRate)) }
    else some lb

/-- Go `lb.Allow()` at clock reading `now`: the state left behind and the returned flag. -/
def LeakyBucket.Allow (lb : LeakyBucket) (now : Int) : Option (LeakyBucket × Bool) :=
  match lb.leak now with
  | none => none
  | some lb1 =>
    if lb1.tokens ≥ lb1.capacity then some (lb1, false)
    else some ({ lb1 with tokens := lb1.tokens + 1 }, true)

/-- One pass through the body of the `for` loop of Go `lb.Take()` at clock reading `now`:
`some (lb1, none)` when `Take` returns, `some (lb1, some waitTime)` when it unlocks and
sleeps for `waitTime` before the next pass. -/
def LeakyBucket.takeIter (lb : LeakyBucket) (now : Int) : Option (LeakyBucket × Option Int) :=
  match lb.leak now with
  | none => none
  | some lb1 =>
    if lb1.tokens < lb1.capacity then some ({ lb1 with tokens := lb1.tokens + 1 }, none)
    else some (lb1, some lb1.leakRate)

/-- Runs `Allow` once per clock reading of the list, in order; the flags returned and the
final state. -/
def allowSeq : LeakyBucket → List Int → Option (List Bool × LeakyBucket)
  | lb, [] => some ([], lb)
  | lb, now :: rest =>
    match lb.Allow now with
    | none => none
    | some (lb1, r) =>
      match allowSeq lb1 rest with
      | none => none
      | some (rs, lb2) => some (r :: rs, lb2)

/-- The operations that take the mutex and write the state. -/
inductive Step where
  | allow
  | takeIter
  | leak
deriving DecidableEq, Repr

/-- The state a step leaves behind, `none` when it panics. -/
def Step.run (lb : LeakyBucket) (now : Int) : Step → Option LeakyBucket
  | .allow => (lb.Allow now).map Prod.fst
  | .takeIter => (lb.takeIter now).map Prod.fst
  | .leak => lb.leak now

/-- The states observed after each step of a run, up to the first panic. -/
def observe : LeakyBucket → List (Step × Int) → List LeakyBucket
  | _, [] => []
  | lb, (op, now) :: rest =>
    match op.run lb now with
    | none => []
    | some lb1 => lb1 :: observe lb1 rest

/-- The state `leak` writes when `q` whole intervals have elapsed. -/
def leakBy (lb : LeakyBucket) (q : Int) : LeakyBucket :=
  { lb with
    tokens := if q > lb.tokens then 0 else lb.tokens - q
    lastLeakTime := lb.lastLeakTime + q * lb.leakRate }

/-- The bounds on `tokens`, together with the two fields no operation writes. -/
def Inv (C I : Int) (lb : LeakyBucket) : Prop :=
  lb.capacity = C ∧ lb.leakRate = I ∧ 0 ≤ lb.tokens ∧ lb.tokens ≤ C

end leaky_bucket

namespace token_bucket

/-- Go `d.Seconds()`: a duration in nanoseconds as a number of seconds, in exact
arithmetic over an ordered field. -/
def Seconds {K : Type} [LinearOrderedField K] (d : Int) : K := (d : K) / 1000000000

/-- The fields of `TokenBucket` that the mutex guards; the `float64` fields are exact
numbers of an ordered field `K`. -/
structure TokenBucket (K : Type) where
  tokens : K
  maxTokens : K
  refillRate : K
  lastRefillTime : Int

/-- Go `NewTokenBucket(maxTokens, refillRate)`, created at clock reading `now`. -/
def NewTokenBucket {K : Type} (maxTokens refillRate : K) (now : Int) : TokenBucket K :=
  { tokens := maxTokens
    maxTokens := maxTokens
    refillRate := refillRate
    lastRefillTime := now }

/-- Go `tb.refill()` at clock reading `now`. -/
def TokenBucket.refill {K : Type} [LinearOrderedField K] (tb : TokenBucket K) (now : Int) :
    TokenBucket K :=
  let duration : K := Seconds (time.Sub now tb.lastRefillTime)
  let tokensToAdd := duration * tb.refillRate
  let tokens := tb.tokens + tokensToAdd
  { tb with
    tokens := if tokens > tb.maxTokens then tb.maxTokens else tokens
    lastRefillTime := now }

/-- Go `tb.Allow(tokensRequired)` at clock reading `now`: the state left behind and the
returned flag. -/
def TokenBucket.Allow {K : Type} [LinearOrderedField K] (tb : TokenBucket K)
    (tokensRequired : K) (now : Int) : TokenBucket K × Bool :=
  let tb1 := tb.refill now
  if tb1.tokens ≥ tokensRequired then ({ tb1 with tokens := tb1.tokens - tokensRequired }, true)
  else (tb1, false)

/-- Runs `Allow(cost)` once per `(cost, clock reading)` of the list, in order; the flag
returned by each call and the state it left. -/
def allowSeq {K : Type} [LinearOrderedField K] :
    TokenBucket K → List (K × Int) → List (Bool × TokenBucket K)
  | _, [] => []
  | tb, (cost, now) :: rest =>
    ((tb.Allow cost now).2, (tb.Allow cost now).1) :: allowSeq (tb.Allow cost now).1 rest

/-- The sum of the costs of the calls of a run that returned `true`. -/
def spent {K : Type} [LinearOrderedField K] : TokenBucket K → List (K × Int) → K
  | _, [] => 0
  | tb, (cost, now) :: rest =>
    (if (tb.Allow cost now).2 = true then cost else 0) + spent (tb.Allow cost now).1 rest

end token_bucket

namespace leaky_bucket

/-- How a call of `Take` ends: it returned (the state it left, the clock reading of its last
pass and the number of times it slept), it panicked, or it is still looping when the
passes granted to it are used up. -/
inductive TakeResult where
  | returned (lb : LeakyBucket) (reading : Int) (sleeps : Nat)
  | panicked
  | running (lb : LeakyBucket)
deriving DecidableEq, Repr

/-- Go `lb.Take()` for a single caller, bounded to `fuel` passes of its `for` loop. The
pass reads the clock at `now`; `sleep t d` is the clock reading at which
`time.Sleep(d)`, begun at reading `t`, wakes up; `sleeps` counts the sleeps so far. The
`time.Now()` of a returning pass is taken to read the instant of that pass. -/
def LeakyBucket.Take (sleep : Int → Int → Int) : Nat → LeakyBucket → Int → Nat → TakeResult
  | 0, lb, _, _ => TakeResult.running lb
  | fuel + 1, lb, now, sleeps =>
    match lb.takeIter now with
    | none => TakeResult.panicked
    | some (lb1, none) => TakeResult.returned lb1 now sleeps
    | some (lb1, some waitTime) =>
      LeakyBucket.Take sleep fuel lb1 (sleep now waitTime) (sleeps + 1)

end leaky_bucket

namespace fixed_window

/-- The values `handle` returns: Go `nil` and `ErrCanceled`. -/
inductive Error where
  | nil
  | ErrCanceled
deriving DecidableEq, Repr

/-- What the closures `handle` and `cancel` share: the ticker and the channel `canceled`.
The ticker has its period, the instant of the next tick it will produce, whether a tick
is ready to be received from its channel `ticker.C`, and whether `Stop` was called; `canceled`
records that the channel `canceled` is closed; `dispatched` lists the instants of the
`go fn()` statements, the latest first. -/
structure ThrottleState where
  period : Int
  nextTick : Int
  tick : Bool
  stopped : Bool
  canceled : Bool
  dispatched : List Int
deriving DecidableEq, Repr

/-- Go `Throttle(limit, fn)` called at clock reading `now`; `none` is a panic:
the division by a zero `limit`, or `time.NewTicker` given a non-positive interval. -/
def Throttle (limit : Int) (now : Int) : Option ThrottleState :=
  if limit = 0 then none
  else if wrapInt64 (Int.tdiv time.Second limit) ≤ 0 then none
  else some
    { period := wrapInt64 (Int.tdiv time.Second limit)
      nextTick := now + wrapInt64 (Int.tdiv time.Second limit)
      tick := false
      stopped := false
      canceled := false
      dispatched := [] }

/-- The work of the running ticker up to clock reading `now`: a tick that has come due is
ready to be received from `ticker.C`, and ticks that come due while one is waiting are
dropped. A stopped ticker sends nothing. -/
def ThrottleState.elapse (s : ThrottleState) (now : Int) : ThrottleState :=
  if s.stopped then s
  else if now < s.nextTick then s
  else { s with
    tick := true
    nextTick := s.nextTick + s.period * ((now - s.nextTick) / s.period + 1) }

/-- Go `handle()` called by a single caller at clock reading `now`: the state left, the
value returned and the clock reading at the return. When both channels are ready
`select` takes either case: `pick = true` is the choice of `ticker.C`. With neither
ready the caller waits for the next tick; `none` is a wait that never ends. -/
def ThrottleState.handle (s : ThrottleState) (now : Int) (pick : Bool) :
    Option (ThrottleState × Error × Int) :=
  let s1 := s.elapse now
  if s1.tick then
    if s1.canceled then
      if pick then
        some ({ s1 with tick := false, dispatched := now :: s1.dispatched }, Error.nil, now)
      else some (s1, Error.ErrCanceled, now)
    else some ({ s1 with tick := false, dispatched := now :: s1.dispatched }, Error.nil, now)
  else if s1.canceled then some (s1, Error.ErrCanceled, now)
  else if s1.stopped then none
  else
    some ({ s1 with
        nextTick := s1.nextTick + s1.period
        dispatched := s1.nextTick :: s1.dispatched }, Error.nil, s1.nextTick)

/-- Go `close(canceled)`: closing a closed channel panics (`none`). -/
def ThrottleState.closeCanceled (s : ThrottleState) : Option ThrottleState :=
  if s.canceled then none else some { s with canceled := true }

/-- Go `ticker.Stop()`: no more ticks are sent, and a tick sent before the call is not
received after it. -/
def ThrottleState.Stop (s : ThrottleState) : ThrottleState :=
  { s with stopped := true, tick := false }

/-- Go `cancel()` called at clock reading `now`; `none` is a panic. -/
def ThrottleState.cancel (s : ThrottleState) (now : Int) : Option ThrottleState :=
  let s1 := s.elapse now
  if s1.canceled then some s1
  else ThrottleState.closeCanceled s1.Stop

/-- Runs `handle` once per `(clock reading, pick)` of the list, in order; the values
returned and the final state. -/
def handleSeq : ThrottleState → List (Int × Bool) → Option (List Error × ThrottleState)
  | s, [] => some ([], s)
  | s, (now, pick) :: rest =>
    match s.handle now pick with
    | none => none
    | some (s1, r, _) =>
      match handleSeq s1 rest with
      | none => none
      | some (rs, s2) => some (r :: rs, s2)

/-- The calls a holder of the two closures can make. -/
inductive Call where
  | handle (pick : Bool)
  | cancel
deriving DecidableEq, Repr

/-- The state a call leaves, `none` when it panics or waits for ever. -/
def Call.run (s : ThrottleState) (now : Int) : Call → Option ThrottleState
  | Call.handle pick => (s.handle now pick).map Prod.fst
  | Call.cancel => s.cancel now

/-- Runs a list of calls, each at its clock reading, in order. -/
def runCalls : ThrottleState → List (Call × Int) → Option ThrottleState
  | s, [] => some s
  | s, (op, now) :: rest =>
    match Call.run s now op with
    | none => none
    | some s1 => runCalls s1 rest

/-- Runs `cancel` once per clock reading of the list, in order. -/
def cancelSeq : ThrottleState → List Int → Option ThrottleState
  | s, [] => some s
  | s, now :: rest =>
    match s.cancel now with
    | none => none
    | some s1 => cancelSeq s1 rest

end fixed_window

namespace float64

/-- A `float64` value: a finite number, an infinity (`negative` for `-Inf`) or NaN. A
finite value is kept as the rational it denotes. -/
inductive Float64 where
  | finite (q : ℚ)
  | inf (negative : Bool)
  | nan
deriving DecidableEq

/-- Counts the binary digits of `n` by halving, at most `fuel` times. -/
def bitLengthAux : Nat → Nat → Nat
  | 0, _ => 0
  | fuel + 1, n => if n = 0 then 0 else bitLengthAux fuel (n / 2) + 1

/-- The number of binary digits of `n`: the least `b` with `n < 2^b`. -/
def bitLength (n : Nat) : Nat := bitLengthAux n n

/-- The whole number nearest to `n / d`, the even one of two equally near. -/
def roundHalfEven (n d : Nat) : Nat :=
  if 2 * (n % d) < d then n / d
  else if d < 2 * (n % d) then n / d + 1
  else if (n / d) % 2 = 0 then n / d
  else n / d + 1

/-- The `float64` nearest to the positive number `n / d`, ties to even, in units of
`2^-1074` (the smallest positive `float64`): 53 significant binary digits are kept, and
below `2^-1022` the unit itself is the step. -/
def roundScaled (n d : Nat) : Nat :=
  if bitLength (n * 2 ^ 1074 / d) ≤ 53 then roundHalfEven (n * 2 ^ 1074) d
  else roundHalfEven (n * 2 ^ 1074) (d * 2 ^ (bitLength (n * 2 ^ 1074 / d) - 53))
    * 2 ^ (bitLength (n * 2 ^ 1074 / d) - 53)

/-- The `float64` nearest to the rational `x`, ties to even; `2^1024` and above overflow to
an infinity. -/
def nearest (x : ℚ) : Float64 :=
  if 2 ^ 2098 ≤ roundScaled x.num.natAbs x.den then Float64.inf (decide (x < 0))
  else if x < 0 then Float64.finite (-((roundScaled x.num.natAbs x.den : ℚ) / 2 ^ 1074))
  else Float64.finite ((roundScaled x.num.natAbs x.den : ℚ) / 2 ^ 1074)

/-- Go `float64(n)` for an integer `n`. -/
def ofInt (n : Int) : Float64 := nearest (n : ℚ)

/-- Go `a + b` on `float64`. -/
def add : Float64 → Float64 → Float64
  | Float64.finite a, Float64.finite b => nearest (a + b)
  | Float64.finite _, Float64.inf s => Float64.inf s
  | Float64.inf s, Float64.finite _ => Float64.inf s
  | Float64.inf s, Float64.inf t => if s = t then Float64.inf s else Float64.nan
  | Float64.nan, _ => Float64.nan
  | _, Float64.nan => Float64.nan

/-- Go `-a` on `float64`. -/
def neg : Float64 → Float64
  | Float64.finite a => Float64.finite (-a)
  | Float64.inf s => Float64.inf (!s)
  | Float64.nan => Float64.nan

/-- Go `a - b` on `float64`. -/
def sub (a b : Float64) : Float64 := add a (neg b)

/-- Go `a * b` on `float64`. -/
def mul : Float64 → Float64 → Float64
  | Float64.finite a, Float64.finite b => nearest (a * b)
  | Float64.finite a, Float64.inf s =>
    if a = 0 then Float64.nan else Float64.inf (xor (decide (a < 0)) s)
  | Float64.inf s, Float64.finite b =>
    if b = 0 then Float64.nan else Float64.inf (xor s (decide (b < 0)))
  | Float64.inf s, Float64.inf t => Float64.inf (xor s t)
  | Float64.nan, _ => Float64.nan
  | _, Float64.nan => Float64.nan

/-- Go `a / c` on `float64` for a finite constant `c` other than zero. -/
def quot (a : Float64) (c : ℚ) : Float64 :=
  match a with
  | Float64.finite q => nearest (q / c)
  | Float64.inf s => Float64.inf (xor s (decide (c < 0)))
  | Float64.nan => Float64.nan

/-- Go `a < b` on `float64`. -/
def lt : Float64 → Float64 → Bool
  | Float64.finite a, Float64.finite b => decide (a < b)
  | Float64.finite _, Float64.inf s => !s
  | Float64.inf s, Float64.finite _ => s
  | Float64.inf s, Float64.inf t => s && !t
  | Float64.nan, _ => false
  | _, Float64.nan => false

/-- Go `a <= b` on `float64`. -/
def le : Float64 → Float64 → Bool
  | Float64.finite a, Float64.finite b => decide (a ≤ b)
  | Float64.finite _, Float64.inf s => !s
  | Float64.inf s, Float64.finite _ => s
  | Float64.inf s, Float64.inf t => s || !t
  | Float64.nan, _ => false
  | _, Float64.nan => false

/-- Go `d.Seconds()`: `float64(d / Second) + float64(d % Second) / 1e9`. -/
def Seconds (d : Int) : Float64 :=
  add (ofInt (Int.tdiv d 1000000000)) (quot (ofInt (Int.tmod d 1000000000)) 1000000000)

end float64

namespace token_bucket64

/-- The fields of `TokenBucket` that the mutex guards, as `float64` values. -/
structure TokenBucket where
  tokens : float64.Float64
  maxTokens : float64.Float64
  refillRate : float64.Float64
  lastRefillTime : Int
deriving DecidableEq

/-- Go `NewTokenBucket(maxTokens, refillRate)`, created at clock reading `now`. -/
def NewTokenBucket (maxTokens refillRate : float64.Float64) (now : Int) : TokenBucket :=
  { tokens := maxTokens
    maxTokens := maxTokens
    refillRate := refillRate
    lastRefillTime := now }

/-- Go `tb.refill()` at clock reading `now`, in `float64`. -/
def TokenBucket.refill (tb : TokenBucket) (now : Int) : TokenBucket :=
  let duration := float64.Seconds (time.Sub now tb.lastRefillTime)
  let tokensToAdd := float64.mul duration tb.refillRate
  let tokens := float64.add tb.tokens tokensToAdd
  { tb with
    tokens := if float64.lt tb.maxTokens tokens then tb.maxTokens else tokens
    lastRefillTime := now }

/-- Go `tb.Allow(tokensRequired)` at clock reading `now`, in `float64`: the state left
behind and the returned flag. -/
def TokenBucket.Allow (tb : TokenBucket) (tokensRequired : float64.Float64) (now : Int) :
    TokenBucket × Bool :=
  let tb1 := tb.refill now
  if float64.le tokensRequired tb1.tokens then
    ({ tb1 with tokens := float64.sub tb1.tokens tokensRequired }, true)
  else (tb1, false)

/-- Runs `Allow(cost)` once per `(cost, clock reading)` of the list, in order; the flag
returned by each call and the state it left. -/
def allowSeq : TokenBucket → List (float64.Float64 × Int) → List (Bool × TokenBucket)
  | _, [] => []
  | tb, (cost, now) :: rest =>
    ((tb.Allow cost now).2, (tb.Allow cost now).1) :: allowSeq (tb.Allow cost now).1 rest

end token_bucket64

/-! ## Arithmetic of durations -/

theorem wrapInt64_of_range {x : Int} (h1 : time.minDuration ≤ x) (h2 : x ≤ time.maxDuration) :
    wrapInt64 x = x := by
  simp only [wrapInt64, time.minDuration, time.maxDuration] at *
  omega

theorem sub_range (t u : Int) :
    time.minDuration ≤ time.Sub t u ∧ time.Sub t u ≤ time.maxDuration := by
  simp only [time.Sub, time.minDuration, time.maxDuration]
  split_ifs <;> omega

theorem sub_le_of_le {t u : Int} (h : u ≤ t) : 0 ≤ time.Sub t u ∧ time.Sub t u ≤ t - u := by
  simp only [time.Sub, time.minDuration, time.maxDuration]
  split_ifs <;> omega

theorem sub_lt_of_lt {t u I : Int} (h : t - u < I) (hI : 0 < I) : time.Sub t u < I := by
  simp only [time.Sub, time.minDuration, time.maxDuration]
  split_ifs <;> omega

theorem sub_exact {t u : Int} (h1 : time.minDuration ≤ t - u) (h2 : t - u ≤ time.maxDuration) :
    time.Sub t u = t - u := by
  simp only [time.Sub, time.minDuration, time.maxDuration] at *
  split_ifs <;> omega

/-- Truncated division by a positive divisor is positive exactly from the divisor on. -/
theorem tdiv_pos_iff {e I : Int} (hI : 0 < I) : 0 < Int.tdiv e I ↔ I ≤ e := by
  constructor
  · intro h
    by_contra hlt
    push_neg at hlt
    rcases lt_or_le e 0 with he | he
    · have h1 : 0 ≤ Int.tdiv (-e) I := Int.tdiv_nonneg (by omega) hI.le
      rw [Int.neg_tdiv] at h1
      omega
    · rw [Int.tdiv_eq_zero_of_lt he hlt] at h
      omega
  · intro h
    rw [Int.tdiv_eq_ediv (by omega) hI.le]
    have := (Int.le_ediv_iff_mul_le (a := 1) (b := e) hI).2 (by omega)
    omega

theorem tdiv_eq_ediv_of_le {e I : Int} (hI : 0 < I) (h : I ≤ e) : Int.tdiv e I = e / I :=
  Int.tdiv_eq_ediv (by omega) hI.le

theorem ediv_bounds {e I : Int} (hI : 0 < I) (h : I ≤ e) :
    0 < e / I ∧ e / I ≤ e ∧ e / I * I ≤ e ∧ e < (e / I + 1) * I ∧ 0 < e / I * I := by
  have h1 : 1 ≤ e / I := (Int.le_ediv_iff_mul_le (a := 1) (b := e) hI).2 (by omega)
  have h2 : e / I * I ≤ e := Int.ediv_mul_le e (by omega)
  have h3 : e < (e / I + 1) * I := Int.lt_ediv_add_one_mul_self e hI
  have h4 : e / I ≤ e := Int.ediv_le_self I (by omega)
  have h5 : 0 < e / I * I := Int.mul_pos (by omega) hI
  exact ⟨by omega, h4, h2, h3, h5⟩

namespace leaky_bucket

/-- Normal form of `leak` for a positive leak interval: it never panics, and it writes
exactly when at least one whole interval has elapsed. -/
theorem leak_of_pos (lb : LeakyBucket) (now : Int) (hI : 0 < lb.leakRate) :
    lb.leak now = some (if lb.leakRate ≤ time.Sub now lb.lastLeakTime
      then leakBy lb (time.Sub now lb.lastLeakTime / lb.leakRate) else lb) := by
  have hr := sub_range now lb.lastLeakTime
  unfold LeakyBucket.leak
  simp only [if_neg (ne_of_gt hI)]
  by_cases hle : lb.leakRate ≤ time.Sub now lb.lastLeakTime
  · obtain ⟨b1, b2, b3, b4, b5⟩ := ediv_bounds hI hle
    have hq : Int.tdiv (time.Sub now lb.lastLeakTime) lb.leakRate
        = time.Sub now lb.lastLeakTime / lb.leakRate := tdiv_eq_ediv_of_le hI hle
    have hmin : time.minDuration ≤ 0 := by decide
    rw [hq, wrapInt64_of_range (by omega) (by omega), if_pos b1, if_pos hle,
      wrapInt64_of_range (by omega) (by omega)]
    rfl
  · have hq : ¬ 0 < Int.tdiv (time.Sub now lb.lastLeakTime) lb.leakRate := by
      rw [tdiv_pos_iff hI]; exact hle
    have hlo : time.minDuration ≤ Int.tdiv (time.Sub now lb.lastLeakTime) lb.leakRate := by
      rcases lt_or_le (time.Sub now lb.lastLeakTime) 0 with he | he
      · have h1 : Int.tdiv (-(time.Sub now lb.lastLeakTime)) lb.leakRate
            ≤ -(time.Sub now lb.lastLeakTime) := by
          rw [Int.tdiv_eq_ediv (by omega) hI.le]
          exact Int.ediv_le_self _ (by omega)
        rw [Int.neg_tdiv] at h1
        omega
      · have := Int.tdiv_nonneg he hI.le
        have hmin : time.minDuration ≤ 0 := by decide
        omega
    have hmax : (0 : Int) ≤ time.maxDuration := by decide
    rw [wrapInt64_of_range hlo (by omega), if_neg (by simpa using hq), if_neg hle]

/-! ## The bucket invariant -/

theorem leak_some_iff (lb : LeakyBucket) (now : Int) :
    (∃ lb1, lb.leak now = some lb1) ↔ lb.leakRate ≠ 0 := by
  unfold LeakyBucket.leak
  by_cases h : lb.leakRate = 0
  · simp [h]
  · simp only [if_neg h]
    split_ifs <;> simp [h]

theorem leak_inv {C I : Int} {lb lb1 : LeakyBucket} {now : Int}
    (h : Inv C I lb) (hl : lb.leak now = some lb1) : Inv C I lb1 := by
  obtain ⟨h1, h2, h3, h4⟩ := h
  unfold LeakyBucket.leak at hl
  by_cases h0 : lb.leakRate = 0
  · simp [h0] at hl
  · simp only [if_neg h0] at hl
    split_ifs at hl with hq ht
    · cases hl
      exact ⟨h1, h2, le_refl _, by simpa using (h3.trans h4)⟩
    · cases hl
      refine ⟨h1, h2, ?_, ?_⟩ <;> simp only <;> omega
    · cases hl
      exact ⟨h1, h2, h3, h4⟩

theorem allow_inv {C I : Int} {lb lb1 : LeakyBucket} {now : Int} {r : Bool}
    (h : Inv C I lb) (ha : lb.Allow now = some (lb1, r)) : Inv C I lb1 := by
  unfold LeakyBucket.Allow at ha
  cases hl : lb.leak now with
  | none => simp [hl] at ha
  | some lb2 =>
    obtain ⟨h1, h2, h3, h4⟩ := leak_inv h hl
    simp only [hl] at ha
    split_ifs at ha with hfull
    · cases ha
      exact ⟨h1, h2, h3, h4⟩
    · cases ha
      refine ⟨h1, h2, ?_, ?_⟩ <;> simp only <;> omega

theorem takeIter_inv {C I : Int} {lb lb1 : LeakyBucket} {now : Int} {w : Option Int}
    (h : Inv C I lb) (ha : lb.takeIter now = some (lb1, w)) : Inv C I lb1 := by
  unfold LeakyBucket.takeIter at ha
  cases hl : lb.leak now with
  | none => simp [hl] at ha
  | some lb2 =>
    obtain ⟨h1, h2, h3, h4⟩ := leak_inv h hl
    simp only [hl] at ha
    split_ifs at ha with hroom
    · cases ha
      refine ⟨h1, h2, ?_, ?_⟩ <;> simp only <;> omega
    · cases ha
      exact ⟨h1, h2, h3, h4⟩

theorem step_inv {C I : Int} {lb lb1 : LeakyBucket} {now : Int} {op : Step}
    (h : Inv C I lb) (hs : op.run lb now = some lb1) : Inv C I lb1 := by
  cases op with
  | allow =>
    simp only [Step.run, Option.map_eq_some'] at hs
    obtain ⟨⟨a, r⟩, ha, rfl⟩ := hs
    exact allow_inv h ha
  | takeIter =>
    simp only [Step.run, Option.map_eq_some'] at hs
    obtain ⟨⟨a, w⟩, ha, rfl⟩ := hs
    exact takeIter_inv h ha
  | leak => exact leak_inv h hs

theorem step_some {lb : LeakyBucket} (now : Int) (op : Step) (h : lb.leakRate ≠ 0) :
    ∃ lb1, op.run lb now = some lb1 := by
  obtain ⟨lb2, hl⟩ := (leak_some_iff lb now).2 h
  cases op with
  | allow =>
    simp only [Step.run, LeakyBucket.Allow, hl]
    split_ifs <;> simp
  | takeIter =>
    simp only [Step.run, LeakyBucket.takeIter, hl]
    split_ifs <;> simp
  | leak => exact ⟨lb2, hl⟩

theorem observe_inv {C I : Int} (run : List (Step × Int)) :
    ∀ lb : LeakyBucket, Inv C I lb → ∀ s ∈ observe lb run, Inv C I s := by
  induction run with
  | nil => intro lb _ s hs; simp [observe] at hs
  | cons x rest ih =>
    intro lb h s hs
    obtain ⟨op, now⟩ := x
    simp only [observe] at hs
    cases hr : op.run lb now with
    | none => simp [hr] at hs
    | some lb1 =>
      simp only [hr, List.mem_cons] at hs
      have h1 := step_inv h hr
      rcases hs with rfl | hs
      · exact h1
      · exact ih lb1 h1 s hs

theorem observe_length {C I : Int} (hI : I ≠ 0) (run : List (Step × Int)) :
    ∀ lb : LeakyBucket, Inv C I lb → (observe lb run).length = run.length := by
  induction run with
  | nil => intro lb _; simp [observe]
  | cons x rest ih =>
    intro lb h
    obtain ⟨op, now⟩ := x
    obtain ⟨lb1, hr⟩ := step_some now op (by rw [h.2.1]; exact hI)
    simp only [observe, hr, List.length_cons, ih lb1 (step_inv h hr)]

theorem new_inv (capacity requestsPerSecond now : Int) (h : 0 ≤ capacity) :
    Inv capacity (NewLeakyBucket capacity requestsPerSecond now).leakRate
      (NewLeakyBucket capacity requestsPerSecond now) :=
  ⟨rfl, rfl, le_refl _, h⟩

/-- C1. Leaky Bucket invariant: from a bucket created with `capacity ≥ 0` and any
`requestsPerSecond`, every state observed after a step of a run of `Allow`, `Take`
iterations and `leak` steps, at arbitrary clock readings, has `0 ≤ tokens ≤ capacity`
(and the capacity it was created with); when the leak interval is not zero no step
panics, so a state is observed after every step of the run. -/
theorem C1_leaky_tokens_within_capacity (capacity requestsPerSecond t0 : Int)
    (run : List (Step × Int)) (hcap : 0 ≤ capacity) :
    (∀ s ∈ observe (NewLeakyBucket capacity requestsPerSecond t0) run,
        0 ≤ s.tokens ∧ s.tokens ≤ s.capacity ∧ s.capacity = capacity) ∧
    ((NewLeakyBucket capacity requestsPerSecond t0).leakRate ≠ 0 →
        (observe (NewLeakyBucket capacity requestsPerSecond t0) run).length = run.length) := by
  have h0 := new_inv capacity requestsPerSecond t0 hcap
  refine ⟨fun s hs => ?_, fun hI => observe_length hI run _ h0⟩
  obtain ⟨h1, _, h3, h4⟩ := observe_inv run _ h0 s hs
  exact ⟨h3, by rw [h1]; exact h4, h1⟩

theorem C1_leaky_tokens_within_capacity_witness :
    (0 : Int) ≤ 2 ∧
    ((∀ s ∈ observe (NewLeakyBucket 2 1 0)
          [(Step.allow, 0), (Step.takeIter, 5), (Step.allow, 7), (Step.leak, 3000000000)],
        0 ≤ s.tokens ∧ s.tokens ≤ s.capacity ∧ s.capacity = 2) ∧
      ((NewLeakyBucket 2 1 0).leakRate ≠ 0 →
        (observe (NewLeakyBucket 2 1 0)
          [(Step.allow, 0), (Step.takeIter, 5), (Step.allow, 7), (Step.leak, 3000000000)]).length
          = [(Step.allow, (0 : Int)), (Step.takeIter, 5), (Step.allow, 7),
              (Step.leak, 3000000000)].length)) :=
  ⟨by decide, C1_leaky_tokens_within_capacity 2 1 0 _ (by decide)⟩

/-! ## Long-run rate bound -/

theorem sub_le_diff_of_pos {t u I : Int} (hI : 0 < I) (h : I ≤ time.Sub t u) :
    time.Sub t u ≤ t - u := by
  simp only [time.Sub, time.minDuration, time.maxDuration] at *
  split_ifs at h ⊢ <;> omega

/-- Normal form of `Allow` for a positive leak interval. -/
theorem allow_of_pos (lb : LeakyBucket) (now : Int) (hI : 0 < lb.leakRate) :
    lb.Allow now = some
      (if (if lb.leakRate ≤ time.Sub now lb.lastLeakTime
            then leakBy lb (time.Sub now lb.lastLeakTime / lb.leakRate) else lb).tokens
          ≥ (if lb.leakRate ≤ time.Sub now lb.lastLeakTime
            then leakBy lb (time.Sub now lb.lastLeakTime / lb.leakRate) else lb).capacity
        then ((if lb.leakRate ≤ time.Sub now lb.lastLeakTime
            then leakBy lb (time.Sub now lb.lastLeakTime / lb.leakRate) else lb), false)
        else ({ (if lb.leakRate ≤ time.Sub now lb.lastLeakTime
            then leakBy lb (time.Sub now lb.lastLeakTime / lb.leakRate) else lb) with
            tokens := (if lb.leakRate ≤ time.Sub now lb.lastLeakTime
              then leakBy lb (time.Sub now lb.lastLeakTime / lb.leakRate) else lb).tokens + 1 },
          true)) := by
  unfold LeakyBucket.Allow
  rw [leak_of_pos lb now hI]
  simp only
  split_ifs <;> rfl

/-- One `Allow` against the ledger of the rate bound: `m` counts the whole intervals by
which `lastLeakTime` has advanced since `t0`; an admission is paid for by a free slot or
by an elapsed interval. -/
theorem allow_ledger {C I t0 T : Int} (hI : 0 < I) {lb : LeakyBucket} {m : Int} (now : Int)
    (h : Inv C I lb) (hm : lb.lastLeakTime = t0 + m * I) (hT : lb.lastLeakTime ≤ T)
    (hnow : now ≤ T) :
    ∃ lb1 r m1, lb.Allow now = some (lb1, r) ∧ Inv C I lb1 ∧
      lb1.lastLeakTime = t0 + m1 * I ∧ lb1.lastLeakTime ≤ T ∧
      (if r = true then 1 else 0) + lb.tokens + m ≤ lb1.tokens + m1 := by
  obtain ⟨h1, h2, h3, h4⟩ := h
  have hI' : 0 < lb.leakRate := by rw [h2]; exact hI
  rw [allow_of_pos lb now hI']
  by_cases hle : lb.leakRate ≤ time.Sub now lb.lastLeakTime
  · obtain ⟨b1, b2, b3, b4, b5⟩ := ediv_bounds hI' hle
    have hd := sub_le_diff_of_pos hI' hle
    simp only [if_pos hle]
    generalize time.Sub now lb.lastLeakTime / lb.leakRate = q at *
    have hlast : (leakBy lb q).lastLeakTime = t0 + (m + q) * I := by
      simp only [leakBy, hm, h2]; ring
    have hlastT : (leakBy lb q).lastLeakTime ≤ T := by
      simp only [leakBy]; omega
    have htok : (leakBy lb q).tokens = if q > lb.tokens then 0 else lb.tokens - q := rfl
    have hcap : (leakBy lb q).capacity = C := h1
    have hrate : (leakBy lb q).leakRate = I := h2
    split_ifs with hfull
    · refine ⟨_, false, m + q, rfl, ⟨hcap, hrate, ?_, ?_⟩, hlast, hlastT, ?_⟩
      · rw [htok]; split_ifs <;> omega
      · rw [htok]; split_ifs <;> omega
      · rw [htok]; simp only [Bool.false_eq_true, if_false]; split_ifs <;> omega
    · rw [hcap] at hfull
      refine ⟨_, true, m + q, rfl, ⟨hcap, hrate, ?_, ?_⟩, hlast, hlastT, ?_⟩
      · simp only; rw [htok]; split_ifs <;> omega
      · simp only; omega
      · simp only [if_true]; rw [htok]; split_ifs <;> omega
  · simp only [if_neg hle]
    split_ifs with hfull
    · exact ⟨_, false, m, rfl, ⟨h1, h2, h3, h4⟩, hm, hT, by simp⟩
    · rw [h1] at hfull
      refine ⟨_, true, m, rfl, ⟨h1, h2, ?_, ?_⟩, hm, hT, ?_⟩ <;> simp only [if_true] <;> omega

theorem allowSeq_ledger {C I t0 T : Int} (hI : 0 < I) (times : List Int) :
    ∀ (lb : LeakyBucket) (m : Int), Inv C I lb → lb.lastLeakTime = t0 + m * I →
      lb.lastLeakTime ≤ T → (∀ t ∈ times, t ≤ T) →
      ∃ rs lb2 m2, allowSeq lb times = some (rs, lb2) ∧ rs.length = times.length ∧
        Inv C I lb2 ∧ lb2.lastLeakTime = t0 + m2 * I ∧ lb2.lastLeakTime ≤ T ∧
        (rs.count true : Int) + lb.tokens + m ≤ lb2.tokens + m2 := by
  induction times with
  | nil =>
    intro lb m h hm hT _
    exact ⟨[], lb, m, rfl, rfl, h, hm, hT, by simp⟩
  | cons now rest ih =>
    intro lb m h hm hT hall
    obtain ⟨lb1, r, m1, ha, hinv1, hm1, hT1, hcount1⟩ :=
      allow_ledger hI now h hm hT (hall now (List.mem_cons_self _ _))
    obtain ⟨rs, lb2, m2, hs, hlen, hinv2, hm2, hT2, hcount2⟩ :=
      ih lb1 m1 hinv1 hm1 hT1 (fun t ht => hall t (List.mem_cons_of_mem _ ht))
    refine ⟨r :: rs, lb2, m2, ?_, by simp [hlen], hinv2, hm2, hT2, ?_⟩
    · simp only [allowSeq, ha, hs]
    · cases r
      · simp only [Bool.false_eq_true, if_false] at hcount1
        rw [List.count_cons_of_ne (by decide)]
        omega
      · simp only [if_true] at hcount1
        rw [List.count_cons_self]
        push_cast
        omega

theorem chain_le_last {t0 t : Int} (times : List Int)
    (h : List.Chain (· ≤ ·) t0 (times ++ [t])) : t0 ≤ t ∧ ∀ x ∈ times ++ [t], x ≤ t := by
  induction times generalizing t0 with
  | nil =>
    simp only [List.nil_append, List.chain_cons, List.Chain.nil, and_true] at h
    exact ⟨h, by simp⟩
  | cons a rest ih =>
    simp only [List.cons_append, List.chain_cons] at h
    obtain ⟨h1, h2⟩ := ih h.2
    refine ⟨h.1.trans h1, ?_⟩
    intro x hx
    simp only [List.cons_append, List.mem_cons] at hx
    rcases hx with rfl | hx
    · exact h1
    · exact h2 x hx

/-- C3. Leaky Bucket long-run rate bound: on a bucket created at `t0` with capacity
`C ≥ 0` whose leak interval `I` is positive, every sequence of `Allow` calls at
non-decreasing clock readings from `t0` on, ending with a call at `t`, runs to the end
without panic, and the number of calls that returned `true` is at most
`C + floor((t - t0) / I)`. -/
theorem C3_leaky_rate_bound (C requestsPerSecond t0 : Int) (times : List Int) (t : Int)
    (hC : 0 ≤ C) (hI : 0 < (NewLeakyBucket C requestsPerSecond t0).leakRate)
    (hmono : List.Chain (· ≤ ·) t0 (times ++ [t])) :
    ∃ rs final, allowSeq (NewLeakyBucket C requestsPerSecond t0) (times ++ [t]) = some (rs, final) ∧
      rs.length = (times ++ [t]).length ∧
      (rs.count true : Int) ≤ C + (t - t0) / (NewLeakyBucket C requestsPerSecond t0).leakRate := by
  obtain ⟨h0t, hall⟩ := chain_le_last times hmono
  obtain ⟨rs, lb2, m2, hs, hlen, hinv2, hm2, hT2, hcount⟩ :=
    @allowSeq_ledger C _ t0 t hI (times ++ [t]) (NewLeakyBucket C requestsPerSecond t0) 0
      (new_inv C requestsPerSecond t0 hC) (by simp [NewLeakyBucket]) h0t hall
  refine ⟨rs, lb2, hs, hlen, ?_⟩
  have hm : m2 ≤ (t - t0) / (NewLeakyBucket C requestsPerSecond t0).leakRate :=
    Int.le_ediv_of_mul_le hI (by omega)
  have htok : (NewLeakyBucket C requestsPerSecond t0).tokens = 0 := rfl
  have := hinv2.2.2.2
  omega

theorem C3_leaky_rate_bound_witness :
    (0 : Int) ≤ 2 ∧ 0 < (NewLeakyBucket 2 1 0).leakRate ∧
    List.Chain (· ≤ ·) (0 : Int) ([0, 1, 2] ++ [1000000000]) ∧
    ∃ rs final, allowSeq (NewLeakyBucket 2 1 0) ([0, 1, 2] ++ [1000000000]) = some (rs, final) ∧
      rs.length = ([0, 1, 2] ++ [(1000000000 : Int)]).length ∧
      (rs.count true : Int) ≤ 2 + (1000000000 - 0) / (NewLeakyBucket 2 1 0).leakRate :=
  ⟨by decide, by decide, by simp,
    C3_leaky_rate_bound 2 1 0 [0, 1, 2] 1000000000 (by decide) (by decide) (by simp)⟩

/-! ## Bursts: runs of `Allow` during which nothing leaks -/

theorem allow_no_leak (lb : LeakyBucket) (now : Int) (hI : 0 < lb.leakRate)
    (h : now - lb.lastLeakTime < lb.leakRate) :
    lb.Allow now = some (if lb.tokens ≥ lb.capacity then (lb, false)
      else ({ lb with tokens := lb.tokens + 1 }, true)) := by
  have hlt := sub_lt_of_lt h hI
  rw [allow_of_pos lb now hI]
  simp only [if_neg (not_le.2 hlt)]

theorem allowSeq_no_leak (times : List Int) :
    ∀ lb : LeakyBucket, 0 < lb.leakRate →
      (∀ t ∈ times, t - lb.lastLeakTime < lb.leakRate) →
      ∃ final, allowSeq lb times =
          some ((List.range times.length).map (fun i : Nat => decide (lb.tokens + (i : Int) < lb.capacity)),
            final) ∧
        final.capacity = lb.capacity ∧ final.leakRate = lb.leakRate ∧
        final.lastLeakTime = lb.lastLeakTime ∧
        final.tokens = max lb.tokens (min lb.capacity (lb.tokens + times.length)) := by
  induction times with
  | nil =>
    intro lb _ _
    refine ⟨lb, rfl, rfl, rfl, rfl, ?_⟩
    simp only [List.length_nil, Nat.cast_zero, add_zero]
    omega
  | cons now rest ih =>
    intro lb hI hall
    have ha := allow_no_leak lb now hI (hall now (List.mem_cons_self _ _))
    have hrest : ∀ t ∈ rest, t - lb.lastLeakTime < lb.leakRate :=
      fun t ht => hall t (List.mem_cons_of_mem _ ht)
    by_cases hfull : lb.tokens ≥ lb.capacity
    · rw [if_pos hfull] at ha
      obtain ⟨final, hs, h1, h2, h3, h4⟩ := ih lb hI hrest
      refine ⟨final, ?_, h1, h2, h3, ?_⟩
      · simp only [allowSeq, ha, hs, List.length_cons, List.range_succ_eq_map, List.map_cons,
          List.map_map]
        have hf : ∀ i : Nat, decide (lb.tokens + (i : Int) < lb.capacity) = false := by
          intro i; simp only [decide_eq_false_iff_not]; omega
        simp [hf, hfull]
      · rw [h4]; simp only [List.length_cons]; push_cast; omega
    · rw [if_neg hfull] at ha
      obtain ⟨final, hs, h1, h2, h3, h4⟩ :=
        ih { lb with tokens := lb.tokens + 1 } hI hrest
      refine ⟨final, ?_, h1, h2, h3, ?_⟩
      · simp only [allowSeq, ha, hs, List.length_cons, List.range_succ_eq_map, List.map_cons,
          List.map_map]
        have h0 : decide (lb.tokens + ((0 : Nat) : Int) < lb.capacity) = true := by
          simp only [decide_eq_true_eq]; push_cast; omega
        rw [h0]
        congr 3
        apply List.map_congr_left
        intro i _
        simp only [Function.comp, Nat.succ_eq_add_one]
        push_cast
        rw [add_assoc, add_comm 1 (i : Int)]
      · rw [h4]; simp only [List.length_cons]; push_cast; omega

theorem count_true_below (c : Int) (K : Nat) :
    ((List.range K).map (fun i : Nat => decide ((i : Int) < c))).count true = min K c.toNat := by
  induction K with
  | zero => simp
  | succ n ih =>
    rw [List.range_succ, List.map_append, List.count_append, ih]
    by_cases h : (n : Int) < c
    · simp only [List.map_cons, List.map_nil, h, decide_True, List.count_cons_self, List.count_nil]
      omega
    · simp only [List.map_cons, List.map_nil, h, decide_False]
      rw [List.count_cons_of_ne (by decide)]
      simp only [List.count_nil]
      omega

theorem below_eq_succ_le (C : Int) :
    (fun i : Nat => decide ((0 : Int) + (i : Int) < C)) = fun i : Nat => decide ((i : Int) + 1 ≤ C) := by
  funext i
  apply Bool.decide_congr
  omega

theorem succ_le_eq_below (C : Int) :
    (fun i : Nat => decide ((i : Int) + 1 ≤ C)) = fun i : Nat => decide ((i : Int) < C) := by
  funext i
  apply Bool.decide_congr
  omega

/-- A fresh bucket with a positive leak interval, called only at readings less than one
interval after its creation, admits exactly the first `C` calls. -/
theorem fresh_burst (C requestsPerSecond t0 : Int) (times : List Int) (hC : 0 ≤ C)
    (hI : 0 < (NewLeakyBucket C requestsPerSecond t0).leakRate)
    (hwin : ∀ t ∈ times, t - t0 < (NewLeakyBucket C requestsPerSecond t0).leakRate) :
    ∃ final, allowSeq (NewLeakyBucket C requestsPerSecond t0) times =
        some ((List.range times.length).map (fun i : Nat => decide ((i : Int) + 1 ≤ C)), final) ∧
      ((List.range times.length).map (fun i : Nat => decide ((i : Int) + 1 ≤ C))).count true
        = min times.length C.toNat ∧
      final.tokens = min C times.length ∧ final.lastLeakTime = t0 := by
  obtain ⟨final, hs, _, _, h3, h4⟩ :=
    allowSeq_no_leak times (NewLeakyBucket C requestsPerSecond t0) hI hwin
  have htok : (NewLeakyBucket C requestsPerSecond t0).tokens = 0 := rfl
  have hcap : (NewLeakyBucket C requestsPerSecond t0).capacity = C := rfl
  rw [htok, hcap] at hs h4
  rw [below_eq_succ_le] at hs
  refine ⟨final, hs, ?_, ?_, h3⟩
  · rw [succ_le_eq_below, count_true_below]
  · rw [h4]; omega

/-- C5. Leaky Bucket burst bound: on a fresh bucket with capacity `C ≥ 0` and leak
interval `I`, for every sequence of `Allow` calls, in any order, whose clock readings
all lie less than one leak interval after creation, the `i`-th call returns `true` iff
`i ≤ C`; so exactly `min K C` of `K` calls succeed, and call `C + 1` fails. -/
theorem C5_leaky_burst_bound (C requestsPerSecond t0 : Int) (times : List Int) (hC : 0 ≤ C)
    (hwin : ∀ t ∈ times,
      t0 ≤ t ∧ t - t0 < (NewLeakyBucket C requestsPerSecond t0).leakRate) :
    ∃ final, allowSeq (NewLeakyBucket C requestsPerSecond t0) times =
        some ((List.range times.length).map (fun i : Nat => decide ((i : Int) + 1 ≤ C)), final) ∧
      ((List.range times.length).map (fun i : Nat => decide ((i : Int) + 1 ≤ C))).count true
        = min times.length C.toNat ∧
      final.tokens = min C times.length := by
  cases times with
  | nil => exact ⟨_, rfl, by simp, by simp [NewLeakyBucket]; omega⟩
  | cons t rest =>
    have ht := hwin t (List.mem_cons_self _ _)
    obtain ⟨final, h1, h2, h3, _⟩ := fresh_burst C requestsPerSecond t0 (t :: rest) hC
      (by omega) (fun x hx => (hwin x hx).2)
    exact ⟨final, h1, h2, h3⟩

theorem C5_leaky_burst_bound_witness :
    (0 : Int) ≤ 3 ∧
    (∀ t ∈ [(5 : Int), 0, 999999999, 7, 2],
      (0 : Int) ≤ t ∧ t - 0 < (NewLeakyBucket 3 1 0).leakRate) ∧
    ∃ final, allowSeq (NewLeakyBucket 3 1 0) [5, 0, 999999999, 7, 2] =
        some ((List.range [(5 : Int), 0, 999999999, 7, 2].length).map
          (fun i : Nat => decide ((i : Int) + 1 ≤ 3)), final) ∧
      ((List.range [(5 : Int), 0, 999999999, 7, 2].length).map
          (fun i : Nat => decide ((i : Int) + 1 ≤ 3))).count true
        = min [(5 : Int), 0, 999999999, 7, 2].length (3 : Int).toNat ∧
      final.tokens = min 3 [(5 : Int), 0, 999999999, 7, 2].length :=
  ⟨by decide, by decide,
    C5_leaky_burst_bound 3 1 0 [5, 0, 999999999, 7, 2] (by decide) (by decide)⟩

/-! ## Reopening of a full bucket -/

/-- C6, as stated, fails when the gap exceeds the largest `Duration`: a full bucket of
capacity 1 with a one-second interval, read `2^64` ns after `lastLeakTime`, has
`min(k, C) = 1`, yet the second back-to-back call is admitted too, because `Sub`
saturates and each call leaks again. -/
theorem C6_counterexample_saturated_gap :
    min ((18446744073709551616 - (0 : Int)) / 1000000000) 1 = 1 ∧
    (allowSeq ⟨1, 1000000000, 1, 0⟩ [18446744073709551616, 18446744073709551616]).map Prod.fst
      = some [true, true] := by
  decide

/-- C6 (amended). Leaky Bucket reopening: for a full bucket (`tokens = capacity = C ≥ 1`)
with leak interval `I > 0`, read at `now` no more than the largest `Duration` after
`lastLeakTime`, with `k = floor((now - lastLeakTime) / I)`: of `K` back-to-back `Allow`
calls at that reading the `i`-th returns `true` iff `i ≤ min k C` (none when `k ≤ 0`), so
exactly `min k C` succeed and the next one fails. -/
theorem C6_leaky_reopening (lb : LeakyBucket) (now : Int) (K : Nat)
    (hfull : lb.tokens = lb.capacity) (hC : 1 ≤ lb.capacity) (hI : 0 < lb.leakRate)
    (hgap : now - lb.lastLeakTime ≤ time.maxDuration) :
    ∃ final, allowSeq lb (List.replicate K now) =
        some ((List.range K).map (fun i : Nat =>
          decide ((i : Int) < min ((now - lb.lastLeakTime) / lb.leakRate) lb.capacity)), final) ∧
      ((List.range K).map (fun i : Nat =>
          decide ((i : Int) < min ((now - lb.lastLeakTime) / lb.leakRate) lb.capacity))).count true
        = min K (min ((now - lb.lastLeakTime) / lb.leakRate) lb.capacity).toNat := by
  suffices h : ∃ final, allowSeq lb (List.replicate K now) =
      some ((List.range K).map (fun i : Nat =>
        decide ((i : Int) < min ((now - lb.lastLeakTime) / lb.leakRate) lb.capacity)), final) by
    obtain ⟨final, hf⟩ := h
    exact ⟨final, hf, count_true_below _ K⟩
  by_cases hlt : now - lb.lastLeakTime < lb.leakRate
  · -- nothing leaks: every call finds the bucket full
    obtain ⟨final, hs, _⟩ := allowSeq_no_leak (List.replicate K now) lb hI
      (fun t ht => by rw [List.eq_of_mem_replicate ht]; exact hlt)
    have hk : (now - lb.lastLeakTime) / lb.leakRate < 1 :=
      Int.ediv_lt_of_lt_mul hI (by omega)
    refine ⟨final, ?_⟩
    rw [hs, List.length_replicate]
    congr 2
    apply List.map_congr_left
    intro i _
    apply Bool.decide_congr
    omega
  · -- at least one whole interval has elapsed
    have hle : lb.leakRate ≤ now - lb.lastLeakTime := not_lt.1 hlt
    have hmin : time.minDuration ≤ 0 := by decide
    have hsub : time.Sub now lb.lastLeakTime = now - lb.lastLeakTime :=
      sub_exact (by omega) hgap
    obtain ⟨b1, b2, b3, b4, b5⟩ := ediv_bounds hI hle
    cases K with
    | zero => exact ⟨lb, rfl⟩
    | succ n =>
      have ha := allow_of_pos lb now hI
      rw [hsub, if_pos hle] at ha
      generalize (now - lb.lastLeakTime) / lb.leakRate = k at *
      have htok : (leakBy lb k).tokens = if k > lb.tokens then 0 else lb.tokens - k := rfl
      have hcap : (leakBy lb k).capacity = lb.capacity := rfl
      have hroom : ¬ (leakBy lb k).tokens ≥ (leakBy lb k).capacity := by
        rw [htok, hcap]; split_ifs <;> omega
      rw [if_neg hroom] at ha
      have hexp : (k + 1) * lb.leakRate = k * lb.leakRate + lb.leakRate := by ring
      obtain ⟨final, hs, _⟩ := allowSeq_no_leak (List.replicate n now)
        { leakBy lb k with tokens := (leakBy lb k).tokens + 1 } hI
        (fun t ht => by
          rw [List.eq_of_mem_replicate ht]
          show now - (lb.lastLeakTime + k * lb.leakRate) < lb.leakRate
          omega)
      refine ⟨final, ?_⟩
      simp only [List.replicate_succ, allowSeq, ha, hs, List.length_replicate,
        List.range_succ_eq_map, List.map_cons, List.map_map]
      have h0 : decide (((0 : Nat) : Int) < min k lb.capacity) = true := by
        simp only [decide_eq_true_eq]; push_cast; omega
      rw [h0]
      congr 3
      apply List.map_congr_left
      intro i _
      simp only [Function.comp, Nat.succ_eq_add_one]
      apply Bool.decide_congr
      rw [htok, hcap]
      push_cast
      split_ifs <;> omega

theorem C6_leaky_reopening_witness :
    (⟨5, 100000000, 5, 0⟩ : LeakyBucket).tokens = (⟨5, 100000000, 5, 0⟩ : LeakyBucket).capacity ∧
    1 ≤ (⟨5, 100000000, 5, 0⟩ : LeakyBucket).capacity ∧
    0 < (⟨5, 100000000, 5, 0⟩ : LeakyBucket).leakRate ∧
    200000000 - (⟨5, 100000000, 5, 0⟩ : LeakyBucket).lastLeakTime ≤ time.maxDuration ∧
    ∃ final, allowSeq ⟨5, 100000000, 5, 0⟩ (List.replicate 3 200000000) =
        some ((List.range 3).map (fun i : Nat =>
          decide ((i : Int) < min ((200000000 - (⟨5, 100000000, 5, 0⟩ : LeakyBucket).lastLeakTime)
            / (⟨5, 100000000, 5, 0⟩ : LeakyBucket).leakRate)
            (⟨5, 100000000, 5, 0⟩ : LeakyBucket).capacity)), final) ∧
      ((List.range 3).map (fun i : Nat =>
          decide ((i : Int) < min ((200000000 - (⟨5, 100000000, 5, 0⟩ : LeakyBucket).lastLeakTime)
            / (⟨5, 100000000, 5, 0⟩ : LeakyBucket).leakRate)
            (⟨5, 100000000, 5, 0⟩ : LeakyBucket).capacity))).count true
        = min 3 (min ((200000000 - (⟨5, 100000000, 5, 0⟩ : LeakyBucket).lastLeakTime)
            / (⟨5, 100000000, 5, 0⟩ : LeakyBucket).leakRate)
            (⟨5, 100000000, 5, 0⟩ : LeakyBucket).capacity).toNat :=
  ⟨by decide, by decide, by decide, by decide,
    C6_leaky_reopening ⟨5, 100000000, 5, 0⟩ 200000000 3 (by decide) (by decide) (by decide)
      (by decide)⟩

/-! ## The decision of `Allow` -/

/-- C7. Leaky Bucket Allow decision rule: for every bucket state and clock reading,
`Allow` completes exactly when the leak step does, and then it returns `true` iff the
token count after the leak step is strictly less than the capacity; on `true` the
state is the post-leak state with `tokens` one higher, on `false` it is the post-leak
state itself. -/
theorem C7_allow_decision_rule (lb : LeakyBucket) (now : Int) :
    (lb.leak now = none → lb.Allow now = none) ∧
    ∀ lb1, lb.leak now = some lb1 →
      ∃ lb2 r, lb.Allow now = some (lb2, r) ∧
        (r = true ↔ lb1.tokens < lb1.capacity) ∧
        (r = true → lb2 = { lb1 with tokens := lb1.tokens + 1 }) ∧
        (r = false → lb2 = lb1) := by
  constructor
  · intro h
    simp only [LeakyBucket.Allow, h]
  · intro lb1 h
    by_cases hfull : lb1.tokens ≥ lb1.capacity
    · refine ⟨lb1, false, ?_, ?_, ?_, ?_⟩
      · simp only [LeakyBucket.Allow, h, if_pos hfull]
      · simp only [Bool.false_eq_true, false_iff]; omega
      · intro hr; cases hr
      · intro _; rfl
    · refine ⟨{ lb1 with tokens := lb1.tokens + 1 }, true, ?_, ?_, ?_, ?_⟩
      · simp only [LeakyBucket.Allow, h, if_neg hfull]
      · simp only [true_iff]; omega
      · intro _; rfl
      · intro hr; cases hr

theorem C7_allow_decision_rule_witness :
    (⟨3, 1000000000, 3, 0⟩ : LeakyBucket).leak 2000000000
      = some ⟨3, 1000000000, 1, 2000000000⟩ ∧
    ∃ lb2 r, (⟨3, 1000000000, 3, 0⟩ : LeakyBucket).Allow 2000000000 = some (lb2, r) ∧
      (r = true ↔ (⟨3, 1000000000, 1, 2000000000⟩ : LeakyBucket).tokens
        < (⟨3, 1000000000, 1, 2000000000⟩ : LeakyBucket).capacity) ∧
      (r = true → lb2 = { (⟨3, 1000000000, 1, 2000000000⟩ : LeakyBucket) with
        tokens := (⟨3, 1000000000, 1, 2000000000⟩ : LeakyBucket).tokens + 1 }) ∧
      (r = false → lb2 = ⟨3, 1000000000, 1, 2000000000⟩) :=
  ⟨by decide,
    (C7_allow_decision_rule ⟨3, 1000000000, 3, 0⟩ 2000000000).2 ⟨3, 1000000000, 1, 2000000000⟩
      (by decide)⟩

/-! ## What a rejected `Allow` writes -/

/-- C8, as stated, fails on a bucket of capacity 0: the call is rejected, yet the leak
step that precedes the decision has advanced `lastLeakTime` by one whole interval. -/
theorem C8_counterexample_capacity_zero :
    0 ≤ (NewLeakyBucket 0 1 0).tokens ∧
    (NewLeakyBucket 0 1 0).tokens ≤ (NewLeakyBucket 0 1 0).capacity ∧
    (NewLeakyBucket 0 1 0).Allow 1000000000 = some (⟨0, 1000000000, 0, 1000000000⟩, false) ∧
    (⟨0, 1000000000, 0, 1000000000⟩ : LeakyBucket).lastLeakTime
      ≠ (NewLeakyBucket 0 1 0).lastLeakTime := by
  decide

/-- C8 (amended). A rejected Leaky Bucket `Allow` leaves `tokens`, `capacity` and
`leakRate` as they were, for every state with `0 ≤ tokens ≤ capacity` and every clock
reading; `lastLeakTime` is unchanged too whenever `capacity > 0`. -/
theorem C8_rejected_allow_frame (lb lb1 : LeakyBucket) (now : Int)
    (h0 : 0 ≤ lb.tokens) (hcap : lb.tokens ≤ lb.capacity)
    (ha : lb.Allow now = some (lb1, false)) :
    lb1.tokens = lb.tokens ∧ lb1.capacity = lb.capacity ∧ lb1.leakRate = lb.leakRate ∧
      (0 < lb.capacity → lb1 = lb) := by
  unfold LeakyBucket.Allow at ha
  cases hl : lb.leak now with
  | none => simp [hl] at ha
  | some lb2 =>
    simp only [hl] at ha
    split_ifs at ha with hfull
    · simp only [Option.some.injEq, Prod.mk.injEq, and_true] at ha
      subst ha
      unfold LeakyBucket.leak at hl
      by_cases hz : lb.leakRate = 0
      · simp [hz] at hl
      · simp only [if_neg hz] at hl
        split_ifs at hl with hq ht
        · cases hl
          simp only at hfull
          exact ⟨by simp only; omega, rfl, rfl, fun hpos => by omega⟩
        · cases hl
          simp only at hfull
          omega
        · cases hl
          exact ⟨rfl, rfl, rfl, fun _ => rfl⟩
    · simp at ha

theorem C8_rejected_allow_frame_witness :
    0 ≤ (⟨1, 1000000000, 1, 0⟩ : LeakyBucket).tokens ∧
    (⟨1, 1000000000, 1, 0⟩ : LeakyBucket).tokens ≤ (⟨1, 1000000000, 1, 0⟩ : LeakyBucket).capacity ∧
    (⟨1, 1000000000, 1, 0⟩ : LeakyBucket).Allow 5 = some (⟨1, 1000000000, 1, 0⟩, false) ∧
    ((⟨1, 1000000000, 1, 0⟩ : LeakyBucket).tokens = (⟨1, 1000000000, 1, 0⟩ : LeakyBucket).tokens ∧
      (⟨1, 1000000000, 1, 0⟩ : LeakyBucket).capacity
        = (⟨1, 1000000000, 1, 0⟩ : LeakyBucket).capacity ∧
      (⟨1, 1000000000, 1, 0⟩ : LeakyBucket).leakRate
        = (⟨1, 1000000000, 1, 0⟩ : LeakyBucket).leakRate ∧
      (0 < (⟨1, 1000000000, 1, 0⟩ : LeakyBucket).capacity →
        (⟨1, 1000000000, 1, 0⟩ : LeakyBucket) = ⟨1, 1000000000, 1, 0⟩)) :=
  ⟨by decide, by decide, by decide,
    C8_rejected_allow_frame ⟨1, 1000000000, 1, 0⟩ ⟨1, 1000000000, 1, 0⟩ 5 (by decide) (by decide)
      (by decide)⟩

/-! ## Degenerate configurations -/

/-- C9, as stated, fails once `2^63 - 1` ns have elapsed: the zero-rate bucket of
capacity 1 is full after the first call, and the call made `math.MaxInt64` ns later
finds one whole "interval" elapsed, leaks the token and is admitted. -/
theorem C9_counterexample_max_duration :
    (NewLeakyBucket 1 0 0).leakRate = 9223372036854775807 ∧
    (allowSeq (NewLeakyBucket 1 0 0) [0, 9223372036854775807]).map Prod.fst
      = some [true, true] := by
  decide

/-- C9 (amended). Zero-rate degenerate case: a Leaky Bucket constructed with
`requestsPerSecond ≤ 0` and capacity `C ≥ 0` has leak interval `math.MaxInt64` ns, and
for every sequence of `Allow` calls whose clock readings are all less than
`math.MaxInt64` ns after creation it admits the first `C` calls and rejects every
further one; nothing leaks (`lastLeakTime` stays at the creation time). -/
theorem C9_zero_rate_gate (C requestsPerSecond t0 : Int) (times : List Int) (hC : 0 ≤ C)
    (hrate : requestsPerSecond ≤ 0) (hwin : ∀ t ∈ times, t - t0 < time.maxDuration) :
    (NewLeakyBucket C requestsPerSecond t0).leakRate = time.maxDuration ∧
    ∃ final, allowSeq (NewLeakyBucket C requestsPerSecond t0) times =
        some ((List.range times.length).map (fun i : Nat => decide ((i : Int) + 1 ≤ C)), final) ∧
      final.tokens = min C times.length ∧ final.lastLeakTime = t0 := by
  have hI : (NewLeakyBucket C requestsPerSecond t0).leakRate = time.maxDuration := by
    simp only [NewLeakyBucket, if_pos hrate]
  refine ⟨hI, ?_⟩
  obtain ⟨final, h1, _, h3, h4⟩ := fresh_burst C requestsPerSecond t0 times hC
    (by rw [hI]; decide) (by rw [hI]; exact hwin)
  exact ⟨final, h1, h3, h4⟩

theorem C9_zero_rate_gate_witness :
    (0 : Int) ≤ 2 ∧ (0 : Int) ≤ 0 ∧
    (∀ t ∈ [(0 : Int), 1, 9223372036854775806, 3], t - 0 < time.maxDuration) ∧
    ((NewLeakyBucket 2 0 0).leakRate = time.maxDuration ∧
    ∃ final, allowSeq (NewLeakyBucket 2 0 0) [0, 1, 9223372036854775806, 3] =
        some ((List.range [(0 : Int), 1, 9223372036854775806, 3].length).map
          (fun i : Nat => decide ((i : Int) + 1 ≤ 2)), final) ∧
      final.tokens = min 2 [(0 : Int), 1, 9223372036854775806, 3].length ∧
      final.lastLeakTime = 0) :=
  ⟨by decide, by decide, by decide,
    C9_zero_rate_gate 2 0 0 [0, 1, 9223372036854775806, 3] (by decide) (by decide) (by decide)⟩

/-- A bucket of capacity 0 whose leak interval is not zero rejects every `Allow`, at
every clock reading, and its `tokens` stays 0. -/
theorem capacity_zero_rejects (times : List Int) :
    ∀ lb : LeakyBucket, lb.capacity = 0 → lb.tokens = 0 → lb.leakRate ≠ 0 →
      ∃ final, allowSeq lb times = some (List.replicate times.length false, final) ∧
        final.tokens = 0 := by
  induction times with
  | nil => intro lb _ ht _; exact ⟨lb, rfl, ht⟩
  | cons now rest ih =>
    intro lb hc ht hz
    obtain ⟨lb1, hl⟩ := (leak_some_iff lb now).2 hz
    obtain ⟨h1, h2, h3, h4⟩ := leak_inv (C := 0) (I := lb.leakRate) ⟨hc, rfl, by omega, by omega⟩ hl
    have ha : lb.Allow now = some (lb1, false) := by
      simp only [LeakyBucket.Allow, hl]
      rw [if_pos (by omega)]
    obtain ⟨final, hs, hf⟩ := ih lb1 h1 (by omega) (by rw [h2]; exact hz)
    exact ⟨final, by simp only [allowSeq, ha, hs, List.length_cons, List.replicate_succ], hf⟩

/-- C10 (failing input). `NewLeakyBucket(0, 2000000000)` has leak interval
`time.Second / 2000000000 = 0`, and its first `Allow` panics on the division in `leak`
instead of returning `false`. -/
theorem C10_capacity_zero_panics_above_1e9 :
    (NewLeakyBucket 0 2000000000 0).capacity = 0 ∧
    (NewLeakyBucket 0 2000000000 0).leakRate = 0 ∧
    (NewLeakyBucket 0 2000000000 0).Allow 0 = none := by
  decide

/-! ## The repository tests, replayed on the embedding -/

/-- Replays `TestAllowMethod`: capacity 3, one request per second, four immediate calls. -/
theorem test_allow_method :
    (allowSeq (NewLeakyBucket 3 1 0) [0, 0, 0, 0]).map Prod.fst
      = some [true, true, true, false] := by
  decide

/-- Replays `TestLeakingTokens`: capacity 5, ten requests per second; the bucket is filled,
then read 200 ms later. -/
theorem test_leaking_tokens :
    (allowSeq (NewLeakyBucket 5 10 0)
        [0, 0, 0, 0, 0, 0, 200000000, 200000000, 200000000]).map Prod.fst
      = some [true, true, true, true, true, false, true, true, false] := by
  decide

/-- Replays `TestEmptyBucket`: capacity 0, ten requests per second. -/
theorem test_empty_bucket :
    ((NewLeakyBucket 0 10 0).Allow 0).map Prod.snd = some false := by
  decide

/-- Replays `TestZeroRateLimit`: capacity 5, rate 0; still full one second later. -/
theorem test_zero_rate_limit :
    (allowSeq (NewLeakyBucket 5 0 0) [0, 0, 0, 0, 0, 0, 1000000000]).map Prod.fst
      = some [true, true, true, true, true, false, false] := by
  decide

/-- Replays `TestLeakMoreThanTokens`: three tokens, ten intervals elapsed, all leak. -/
theorem test_leak_more_than_tokens :
    ((allowSeq (NewLeakyBucket 5 10 0) [0, 0, 0]).bind
      (fun p => p.2.leak 1000000000)).map (fun lb => lb.tokens) = some 0 := by
  decide

end leaky_bucket

namespace token_bucket

/-! ## Token bucket -/

theorem seconds_nonneg {K : Type} [LinearOrderedField K] {d : Int} (h : 0 ≤ d) :
    (0 : K) ≤ Seconds d := by
  unfold Seconds
  have : (0 : K) ≤ (d : K) := by exact_mod_cast h
  positivity

theorem seconds_mono {K : Type} [LinearOrderedField K] {a b : Int} (h : a ≤ b) :
    (Seconds a : K) ≤ Seconds b := by
  unfold Seconds
  have : (a : K) ≤ (b : K) := by exact_mod_cast h
  exact div_le_div_of_nonneg_right this (by norm_num)

theorem seconds_add {K : Type} [LinearOrderedField K] (a b : Int) :
    (Seconds (a + b) : K) = Seconds a + Seconds b := by
  unfold Seconds
  push_cast
  ring

theorem tb_refill_step {K : Type} [LinearOrderedField K] (tb : TokenBucket K) (now : Int)
    (hr : 0 ≤ tb.refillRate) (h0 : 0 ≤ tb.tokens) (hM : tb.tokens ≤ tb.maxTokens)
    (ht : tb.lastRefillTime ≤ now) :
    0 ≤ (tb.refill now).tokens ∧ (tb.refill now).tokens ≤ tb.maxTokens ∧
    (tb.refill now).tokens ≤ tb.tokens + tb.refillRate * Seconds (now - tb.lastRefillTime) := by
  obtain ⟨s0, s1⟩ := sub_le_of_le ht
  have hd0 : (0 : K) ≤ Seconds (time.Sub now tb.lastRefillTime) := seconds_nonneg s0
  have hd1 : (Seconds (time.Sub now tb.lastRefillTime) : K) ≤ Seconds (now - tb.lastRefillTime) :=
    seconds_mono s1
  have hadd : 0 ≤ Seconds (time.Sub now tb.lastRefillTime) * tb.refillRate :=
    mul_nonneg hd0 hr
  have hadd1 : Seconds (time.Sub now tb.lastRefillTime) * tb.refillRate
      ≤ tb.refillRate * Seconds (now - tb.lastRefillTime) := by
    rw [mul_comm]
    exact mul_le_mul_of_nonneg_left hd1 hr
  have htok : (tb.refill now).tokens =
      if tb.tokens + Seconds (time.Sub now tb.lastRefillTime) * tb.refillRate > tb.maxTokens
      then tb.maxTokens
      else tb.tokens + Seconds (time.Sub now tb.lastRefillTime) * tb.refillRate := rfl
  rw [htok]
  split_ifs with h1
  · refine ⟨?_, ?_, ?_⟩ <;> linarith
  · refine ⟨?_, ?_, ?_⟩ <;> linarith

/-- What one `Allow` does to the fields, given that the clock has not gone back. -/
theorem tb_allow_step {K : Type} [LinearOrderedField K] (tb : TokenBucket K) (cost : K) (now : Int)
    (hr : 0 ≤ tb.refillRate) (h0 : 0 ≤ tb.tokens) (hM : tb.tokens ≤ tb.maxTokens)
    (hc : 0 ≤ cost) (ht : tb.lastRefillTime ≤ now) :
    (tb.Allow cost now).1.maxTokens = tb.maxTokens ∧
    (tb.Allow cost now).1.refillRate = tb.refillRate ∧
    (tb.Allow cost now).1.lastRefillTime = now ∧
    0 ≤ (tb.Allow cost now).1.tokens ∧
    (tb.Allow cost now).1.tokens ≤ tb.maxTokens ∧
    (if (tb.Allow cost now).2 = true then cost else 0) + (tb.Allow cost now).1.tokens
      ≤ tb.tokens + tb.refillRate * Seconds (now - tb.lastRefillTime) := by
  obtain ⟨r0, r1, r2⟩ := tb_refill_step tb now hr h0 hM ht
  by_cases h : (tb.refill now).tokens ≥ cost
  · have ha : tb.Allow cost now
        = ({ tb.refill now with tokens := (tb.refill now).tokens - cost }, true) := by
      unfold TokenBucket.Allow
      exact if_pos h
    rw [ha]
    refine ⟨rfl, rfl, rfl, ?_, ?_, ?_⟩
    · show 0 ≤ (tb.refill now).tokens - cost
      linarith
    · show (tb.refill now).tokens - cost ≤ tb.maxTokens
      linarith
    · show (if true = true then cost else 0) + ((tb.refill now).tokens - cost) ≤ _
      rw [if_pos rfl]
      linarith
  · have ha : tb.Allow cost now = (tb.refill now, false) := by
      unfold TokenBucket.Allow
      exact if_neg h
    rw [ha]
    refine ⟨rfl, rfl, rfl, r0, r1, ?_⟩
    show (if false = true then cost else 0) + (tb.refill now).tokens ≤ _
    rw [if_neg (by decide)]
    linarith

theorem tb_allowSeq_length {K : Type} [LinearOrderedField K] (calls : List (K × Int)) :
    ∀ tb : TokenBucket K, (allowSeq tb calls).length = calls.length := by
  induction calls with
  | nil => intro tb; rfl
  | cons c rest ih =>
    intro tb
    obtain ⟨cost, now⟩ := c
    simp only [allowSeq, List.length_cons, ih]

theorem tb_allowSeq_inv {K : Type} [LinearOrderedField K] (calls : List (K × Int)) :
    ∀ tb : TokenBucket K, 0 ≤ tb.refillRate → 0 ≤ tb.tokens → tb.tokens ≤ tb.maxTokens →
      (∀ c ∈ calls, 0 ≤ c.1) → List.Chain (· ≤ ·) tb.lastRefillTime (calls.map Prod.snd) →
      ∀ p ∈ allowSeq tb calls, 0 ≤ p.2.tokens ∧ p.2.tokens ≤ tb.maxTokens ∧
        p.2.maxTokens = tb.maxTokens := by
  induction calls with
  | nil => intro tb _ _ _ _ _ p hp; simp [allowSeq] at hp
  | cons c rest ih =>
    intro tb hr h0 hM hc hch p hp
    obtain ⟨cost, now⟩ := c
    simp only [List.map_cons, List.chain_cons] at hch
    obtain ⟨a1, a2, a3, a4, a5, _⟩ :=
      tb_allow_step tb cost now hr h0 hM (hc (cost, now) (List.mem_cons_self _ _)) hch.1
    simp only [allowSeq, List.mem_cons] at hp
    rcases hp with rfl | hp
    · exact ⟨a4, a5, a1⟩
    · have := ih (tb.Allow cost now).1 (by rw [a2]; exact hr) a4 (by rw [a1]; exact a5)
        (fun c hc1 => hc c (List.mem_cons_of_mem _ hc1)) (by rw [a3]; exact hch.2) p hp
      rw [a1] at this
      exact this

/-- C2. Token Bucket invariant: from a bucket created with `maxTokens > 0` and
`refillRate > 0`, after every `Allow(cost)` of a run with costs `≥ 0` at clock readings
that never go back (the creation reading being the first), `0 ≤ tokens ≤ maxTokens`;
arithmetic is exact, over any ordered field. -/
theorem C2_token_bucket_invariant {K : Type} [LinearOrderedField K] (maxTokens refillRate : K) (t0 : Int)
    (calls : List (K × Int)) (hM : 0 < maxTokens) (hr : 0 < refillRate)
    (hcost : ∀ c ∈ calls, 0 ≤ c.1)
    (hmono : List.Chain (· ≤ ·) t0 (calls.map Prod.snd)) :
    (allowSeq (NewTokenBucket maxTokens refillRate t0) calls).length = calls.length ∧
    ∀ p ∈ allowSeq (NewTokenBucket maxTokens refillRate t0) calls,
      0 ≤ p.2.tokens ∧ p.2.tokens ≤ maxTokens ∧ p.2.maxTokens = maxTokens := by
  exact ⟨tb_allowSeq_length calls _,
    tb_allowSeq_inv calls (NewTokenBucket maxTokens refillRate t0) hr.le hM.le (le_refl _)
      hcost hmono⟩

theorem C2_token_bucket_invariant_witness :
    (0 : ℚ) < 5 ∧ (0 : ℚ) < 1 ∧
    (∀ c ∈ [((3 : ℚ), (0 : Int)), (3, 500000000), (1 / 2, 3000000000)], 0 ≤ c.1) ∧
    List.Chain (· ≤ ·) (0 : Int)
      ([((3 : ℚ), (0 : Int)), (3, 500000000), (1 / 2, 3000000000)].map Prod.snd) ∧
    ((allowSeq (NewTokenBucket (5 : ℚ) 1 0)
        [((3 : ℚ), (0 : Int)), (3, 500000000), (1 / 2, 3000000000)]).length
      = [((3 : ℚ), (0 : Int)), (3, 500000000), (1 / 2, 3000000000)].length ∧
    ∀ p ∈ allowSeq (NewTokenBucket (5 : ℚ) 1 0)
        [((3 : ℚ), (0 : Int)), (3, 500000000), (1 / 2, 3000000000)],
      0 ≤ p.2.tokens ∧ p.2.tokens ≤ 5 ∧ p.2.maxTokens = 5) :=
  ⟨by norm_num, by norm_num, by norm_num, by simp,
    C2_token_bucket_invariant (5 : ℚ) 1 0 [(3, 0), (3, 500000000), (1 / 2, 3000000000)]
      (by norm_num) (by norm_num) (by norm_num) (by simp)⟩

/-- The ledger of the rate bound: what a run spends is covered by the tokens held at its
start and the refill earned up to any reading `T` not before its last call. -/
theorem tb_spent_ledger {K : Type} [LinearOrderedField K] (calls : List (K × Int)) (T : Int) :
    ∀ tb : TokenBucket K, 0 ≤ tb.refillRate → 0 ≤ tb.tokens → tb.tokens ≤ tb.maxTokens →
      (∀ c ∈ calls, 0 ≤ c.1) → List.Chain (· ≤ ·) tb.lastRefillTime (calls.map Prod.snd) →
      tb.lastRefillTime ≤ T → (∀ c ∈ calls, c.2 ≤ T) →
      spent tb calls ≤ tb.tokens + tb.refillRate * Seconds (T - tb.lastRefillTime) := by
  induction calls with
  | nil =>
    intro tb hr h0 _ _ _ hT _
    have : (0 : K) ≤ Seconds (T - tb.lastRefillTime) := seconds_nonneg (by omega)
    have := mul_nonneg hr this
    simp only [spent]
    linarith
  | cons c rest ih =>
    intro tb hr h0 hM hc hch hT hall
    obtain ⟨cost, now⟩ := c
    simp only [List.map_cons, List.chain_cons] at hch
    obtain ⟨a1, a2, a3, a4, a5, a6⟩ :=
      tb_allow_step tb cost now hr h0 hM (hc (cost, now) (List.mem_cons_self _ _)) hch.1
    have hnowT : now ≤ T := hall (cost, now) (List.mem_cons_self _ _)
    have hrest := ih (tb.Allow cost now).1 (by rw [a2]; exact hr) a4 (by rw [a1]; exact a5)
      (fun c hc1 => hc c (List.mem_cons_of_mem _ hc1)) (by rw [a3]; exact hch.2)
      (by rw [a3]; exact hnowT) (fun c hc1 => hall c (List.mem_cons_of_mem _ hc1))
    rw [a2, a3] at hrest
    have hsplit : (Seconds (T - tb.lastRefillTime) : K)
        = Seconds (now - tb.lastRefillTime) + Seconds (T - now) := by
      rw [← seconds_add]
      congr 1
      omega
    simp only [spent]
    rw [hsplit, mul_add]
    linarith

/-- C4. Token Bucket long-run rate bound: for a bucket created at `t0` with
`maxTokens ≥ 0` and `refillRate ≥ 0`, and every run of `Allow(cost)` calls with costs
`≥ 0` at non-decreasing clock readings from `t0` on, none later than `t`, the costs of
the calls that returned `true` sum to at most `maxTokens + refillRate * (t - t0)`, the
time in seconds; arithmetic is exact, over any ordered field. -/
theorem C4_token_bucket_rate_bound {K : Type} [LinearOrderedField K] (maxTokens refillRate : K) (t0 t : Int)
    (calls : List (K × Int)) (hM : 0 ≤ maxTokens) (hr : 0 ≤ refillRate)
    (hcost : ∀ c ∈ calls, 0 ≤ c.1)
    (hmono : List.Chain (· ≤ ·) t0 (calls.map Prod.snd))
    (ht : t0 ≤ t) (hupto : ∀ c ∈ calls, c.2 ≤ t) :
    spent (NewTokenBucket maxTokens refillRate t0) calls
      ≤ maxTokens + refillRate * Seconds (t - t0) :=
  tb_spent_ledger calls t (NewTokenBucket maxTokens refillRate t0) hr hM (le_refl _) hcost hmono
    ht hupto

theorem C4_token_bucket_rate_bound_witness :
    (0 : ℚ) ≤ 5 ∧ (0 : ℚ) ≤ 1 ∧
    (∀ c ∈ [((3 : ℚ), (0 : Int)), (3, 500000000), (1 / 2, 3000000000)], 0 ≤ c.1) ∧
    List.Chain (· ≤ ·) (0 : Int)
      ([((3 : ℚ), (0 : Int)), (3, 500000000), (1 / 2, 3000000000)].map Prod.snd) ∧
    (0 : Int) ≤ 3000000000 ∧
    (∀ c ∈ [((3 : ℚ), (0 : Int)), (3, 500000000), (1 / 2, 3000000000)], c.2 ≤ 3000000000) ∧
    spent (NewTokenBucket (5 : ℚ) 1 0) [(3, 0), (3, 500000000), (1 / 2, 3000000000)]
      ≤ 5 + 1 * Seconds (3000000000 - 0) :=
  ⟨by norm_num, by norm_num, by norm_num, by simp, by norm_num, by norm_num,
    C4_token_bucket_rate_bound (5 : ℚ) 1 0 3000000000
      [(3, 0), (3, 500000000), (1 / 2, 3000000000)]
      (by norm_num) (by norm_num) (by norm_num) (by simp) (by norm_num) (by norm_num)⟩

/-- The demo run of `mainTB` cut to three calls: 5 tokens, 1 token per second; costs 3,
3 and 1/2 at 0 s, 0.5 s and 3 s are admitted, rejected, admitted. -/
theorem tb_sample_run :
    (allowSeq (NewTokenBucket (5 : ℚ) 1 0) [(3, 0), (3, 500000000), (1 / 2, 3000000000)]).map
      Prod.fst = [true, false, true] ∧
    spent (NewTokenBucket (5 : ℚ) 1 0) [(3, 0), (3, 500000000), (1 / 2, 3000000000)] = 7 / 2 := by
  constructor <;>
  norm_num [allowSeq, spent, TokenBucket.Allow, TokenBucket.refill, NewTokenBucket, Seconds,
    time.Sub, time.maxDuration, time.minDuration]

end token_bucket

namespace token_bucket

/-! ## The decision of the token bucket's `Allow` -/

theorem tb_refill_tokens {K : Type} [LinearOrderedField K] (tb : TokenBucket K) (now : Int) :
    (tb.refill now).tokens
      = min tb.maxTokens
          (tb.tokens + Seconds (time.Sub now tb.lastRefillTime) * tb.refillRate) := by
  have htok : (tb.refill now).tokens =
      if tb.tokens + Seconds (time.Sub now tb.lastRefillTime) * tb.refillRate > tb.maxTokens
      then tb.maxTokens
      else tb.tokens + Seconds (time.Sub now tb.lastRefillTime) * tb.refillRate := rfl
  rw [htok]
  split_ifs with h
  · exact (min_eq_left h.le).symm
  · exact (min_eq_right (not_lt.1 h)).symm

/-- In exact arithmetic, over any ordered field: with `r = min(maxTokens, tokens + d *
refillRate)`, where `d` is `now - lastRefillTime` in seconds, saturated to the range of a
`Duration`, `Allow(cost)` returns `true` iff `r ≥ cost`; on `true` the new `tokens` is
`r - cost`, on `false` it is `r`; `lastRefillTime` becomes `now`. -/
theorem tb_allow_postcondition_exact {K : Type} [LinearOrderedField K] (tb : TokenBucket K)
    (cost : K) (now : Int) :
    ((tb.Allow cost now).2 = true ↔
      cost ≤ min tb.maxTokens
        (tb.tokens + Seconds (time.Sub now tb.lastRefillTime) * tb.refillRate)) ∧
    ((tb.Allow cost now).2 = true → (tb.Allow cost now).1.tokens
      = min tb.maxTokens
          (tb.tokens + Seconds (time.Sub now tb.lastRefillTime) * tb.refillRate) - cost) ∧
    ((tb.Allow cost now).2 = false → (tb.Allow cost now).1.tokens
      = min tb.maxTokens
          (tb.tokens + Seconds (time.Sub now tb.lastRefillTime) * tb.refillRate)) ∧
    (tb.Allow cost now).1.lastRefillTime = now ∧
    (tb.Allow cost now).1.maxTokens = tb.maxTokens ∧
    (tb.Allow cost now).1.refillRate = tb.refillRate ∧
    (time.minDuration ≤ now - tb.lastRefillTime → now - tb.lastRefillTime ≤ time.maxDuration →
      time.Sub now tb.lastRefillTime = now - tb.lastRefillTime) := by
  rw [← tb_refill_tokens]
  by_cases h : (tb.refill now).tokens ≥ cost
  · have ha : tb.Allow cost now
        = ({ tb.refill now with tokens := (tb.refill now).tokens - cost }, true) := by
      unfold TokenBucket.Allow
      exact if_pos h
    rw [ha]
    exact ⟨⟨fun _ => h, fun _ => rfl⟩, fun _ => rfl, fun hf => (by cases hf), rfl, rfl, rfl,
      fun h1 h2 => sub_exact h1 h2⟩
  · have ha : tb.Allow cost now = (tb.refill now, false) := by
      unfold TokenBucket.Allow
      exact if_neg h
    rw [ha]
    exact ⟨⟨fun hf => (by cases hf), fun hc => absurd hc h⟩, fun hf => (by cases hf),
      fun _ => rfl, rfl, rfl, rfl, fun h1 h2 => sub_exact h1 h2⟩

/-! ## Costs above `maxTokens` -/

end token_bucket

namespace token_bucket

/-! ## A burst on a fresh token bucket -/

theorem sub_self_eq_zero (t : Int) : time.Sub t t = 0 := by
  simp [time.Sub, time.maxDuration, time.minDuration]

/-- One `Allow(1)` at the reading of the last refill, on a bucket holding `m` whole
tokens. -/
theorem tb_allow_one_same_reading {K : Type} [LinearOrderedField K] (tb : TokenBucket K)
    (m : Nat) (htok : tb.tokens = (m : K)) (hle : tb.tokens ≤ tb.maxTokens) :
    (tb.Allow 1 tb.lastRefillTime).2 = decide (0 < m) ∧
    (tb.Allow 1 tb.lastRefillTime).1.tokens = ((m - 1 : Nat) : K) ∧
    (tb.Allow 1 tb.lastRefillTime).1.maxTokens = tb.maxTokens ∧
    (tb.Allow 1 tb.lastRefillTime).1.lastRefillTime = tb.lastRefillTime := by
  have hr : (tb.refill tb.lastRefillTime).tokens = (m : K) := by
    rw [tb_refill_tokens, sub_self_eq_zero]
    simp only [Seconds, Int.cast_zero, zero_div, zero_mul, add_zero]
    rw [min_eq_right hle, htok]
  by_cases h : (tb.refill tb.lastRefillTime).tokens ≥ 1
  · have ha : tb.Allow 1 tb.lastRefillTime
        = ({ tb.refill tb.lastRefillTime with
              tokens := (tb.refill tb.lastRefillTime).tokens - 1 }, true) := by
      unfold TokenBucket.Allow
      exact if_pos h
    rw [hr] at h
    have hm : 1 ≤ m := by exact_mod_cast h
    rw [ha]
    refine ⟨?_, ?_, rfl, rfl⟩
    · simp only [decide_eq_true_eq, eq_comm]; simpa using hm
    · show (tb.refill tb.lastRefillTime).tokens - 1 = _
      rw [hr, Nat.cast_sub hm, Nat.cast_one]
  · have ha : tb.Allow 1 tb.lastRefillTime = (tb.refill tb.lastRefillTime, false) := by
      unfold TokenBucket.Allow
      exact if_neg h
    rw [hr] at h
    have hm : m = 0 := by
      by_contra hne
      exact h (by exact_mod_cast Nat.one_le_iff_ne_zero.2 hne)
    rw [ha]
    refine ⟨?_, ?_, rfl, rfl⟩
    · simp [hm]
    · show (tb.refill tb.lastRefillTime).tokens = _
      rw [hr, hm]

theorem tb_burst_flags {K : Type} [LinearOrderedField K] (n : Nat) :
    ∀ (tb : TokenBucket K) (m : Nat), tb.tokens = (m : K) → tb.tokens ≤ tb.maxTokens →
      (allowSeq tb (List.replicate n ((1 : K), tb.lastRefillTime))).map Prod.fst
        = (List.range n).map (fun i : Nat => decide (i < m)) := by
  induction n with
  | zero => intro tb m _ _; rfl
  | succ n ih =>
    intro tb m htok hle
    obtain ⟨a1, a2, a3, a4⟩ := tb_allow_one_same_reading tb m htok hle
    have hle1 : (tb.Allow 1 tb.lastRefillTime).1.tokens
        ≤ (tb.Allow 1 tb.lastRefillTime).1.maxTokens := by
      rw [a2, a3]
      refine le_trans ?_ hle
      rw [htok]
      exact_mod_cast Nat.sub_le m 1
    have hrest := ih (tb.Allow 1 tb.lastRefillTime).1 (m - 1) a2 hle1
    rw [a4] at hrest
    simp only [List.replicate_succ, allowSeq, List.map_cons, hrest, a1, List.range_succ_eq_map,
      List.map_map]
    congr 1
    apply List.map_congr_left
    intro i _
    simp only [Function.comp, Nat.succ_eq_add_one]
    apply Bool.decide_congr
    omega

theorem count_true_below_nat (C n : Nat) :
    ((List.range n).map (fun i : Nat => decide (i < C))).count true = min n C := by
  induction n with
  | zero => simp
  | succ n ih =>
    rw [List.range_succ, List.map_append, List.count_append, ih]
    by_cases h : n < C
    · simp only [List.map_cons, List.map_nil, h, decide_True, List.count_cons_self, List.count_nil]
      omega
    · simp only [List.map_cons, List.map_nil, h, decide_False]
      rw [List.count_cons_of_ne (by decide)]
      simp only [List.count_nil]
      omega

/-- In exact arithmetic, over any ordered field: `NewTokenBucket(C, r)` has
`tokens = maxTokens = C`, and for every natural number `C` and `n > C`, of `n` calls
`Allow(1)` that all read the creation instant the `i`-th returns `true` iff `i ≤ C`. -/
theorem tb_burst_exact {K : Type} [LinearOrderedField K] (C n : Nat) (r : K)
    (t0 : Int) (hn : C < n) :
    (NewTokenBucket (C : K) r t0).tokens = (C : K) ∧
    (NewTokenBucket (C : K) r t0).maxTokens = (C : K) ∧
    (allowSeq (NewTokenBucket (C : K) r t0) (List.replicate n ((1 : K), t0))).map Prod.fst
      = (List.range n).map (fun i : Nat => decide (i + 1 ≤ C)) ∧
    ((allowSeq (NewTokenBucket (C : K) r t0) (List.replicate n ((1 : K), t0))).map
      Prod.fst).count true = C ∧
    ((allowSeq (NewTokenBucket (C : K) r t0) (List.replicate n ((1 : K), t0))).map
      Prod.fst).count false = n - C := by
  have hflags := tb_burst_flags n (NewTokenBucket (C : K) r t0) C rfl (le_refl _)
  have hlast : (NewTokenBucket (C : K) r t0).lastRefillTime = t0 := rfl
  rw [hlast] at hflags
  have hcount := count_true_below_nat C n
  have hsum := List.count_true_add_count_false
    ((List.range n).map (fun i : Nat => decide (i < C)))
  rw [List.length_map, List.length_range] at hsum
  refine ⟨rfl, rfl, ?_, ?_, ?_⟩
  · rw [hflags]
    apply List.map_congr_left
    intro i _
    apply Bool.decide_congr
    omega
  · rw [hflags, hcount]; omega
  · rw [hflags]; omega

end token_bucket

namespace leaky_bucket

/-! ## The leak step -/

/-- C17, as stated, fails when the gap exceeds the largest `Duration`: read `2^64` ns
after `lastLeakTime` with a one-second interval, the claim's `leaked` is 18446744073,
yet `leak` advances `lastLeakTime` by 9223372036 intervals only (`Sub` saturates), and
more than one interval is still pending afterwards. -/
theorem C17_counterexample_saturated_gap :
    (18446744073709551616 - (0 : Int)) / 1000000000 = 18446744073 ∧
    (⟨5, 1000000000, 5, 0⟩ : LeakyBucket).leak 18446744073709551616
      = some ⟨5, 1000000000, 0, 9223372036000000000⟩ ∧
    (0 : Int) + 18446744073 * 1000000000 ≠ 9223372036000000000 ∧
    ¬ (18446744073709551616 - 9223372036000000000 < (1000000000 : Int)) := by
  decide

/-- C17 (amended). Leaky Bucket leak step: for every state with leak interval `I > 0`
and clock reading `now` at most the largest `Duration` after `lastLeakTime`, with
`leaked = floor((now - lastLeakTime) / I)`: `leak` completes; if `leaked > 0` then
`tokens` becomes `tokens - min(leaked, tokens)` and `lastLeakTime` advances by exactly
`leaked * I`, so that `lastLeakTime ≤ now` and `now - lastLeakTime < I` afterwards; if
`leaked ≤ 0` the state is unchanged; `capacity` and `leakRate` never change. -/
theorem C17_leak_step (lb : LeakyBucket) (now : Int) (hI : 0 < lb.leakRate)
    (hgap : now - lb.lastLeakTime ≤ time.maxDuration) :
    ∃ lb1, lb.leak now = some lb1 ∧
      lb1.capacity = lb.capacity ∧ lb1.leakRate = lb.leakRate ∧
      (0 < (now - lb.lastLeakTime) / lb.leakRate →
        lb1.tokens = lb.tokens - min ((now - lb.lastLeakTime) / lb.leakRate) lb.tokens ∧
        lb1.lastLeakTime
          = lb.lastLeakTime + (now - lb.lastLeakTime) / lb.leakRate * lb.leakRate ∧
        lb1.lastLeakTime ≤ now ∧ now - lb1.lastLeakTime < lb.leakRate) ∧
      ((now - lb.lastLeakTime) / lb.leakRate ≤ 0 → lb1 = lb) := by
  rw [leak_of_pos lb now hI]
  by_cases hlt : now - lb.lastLeakTime < lb.leakRate
  · -- less than one interval has elapsed
    have hk : (now - lb.lastLeakTime) / lb.leakRate < 1 :=
      Int.ediv_lt_of_lt_mul hI (by omega)
    have hs := sub_lt_of_lt hlt hI
    rw [if_neg (not_le.2 hs)]
    exact ⟨lb, rfl, rfl, rfl, fun hpos => by omega, fun _ => rfl⟩
  · have hle : lb.leakRate ≤ now - lb.lastLeakTime := not_lt.1 hlt
    have hmin : time.minDuration ≤ 0 := by decide
    have hsub : time.Sub now lb.lastLeakTime = now - lb.lastLeakTime :=
      sub_exact (by omega) hgap
    obtain ⟨b1, b2, b3, b4, b5⟩ := ediv_bounds hI hle
    rw [hsub, if_pos hle]
    have hexp : ((now - lb.lastLeakTime) / lb.leakRate + 1) * lb.leakRate
        = (now - lb.lastLeakTime) / lb.leakRate * lb.leakRate + lb.leakRate := by ring
    refine ⟨_, rfl, rfl, rfl, fun _ => ⟨?_, rfl, ?_, ?_⟩, fun hnon => by omega⟩
    · show (if (now - lb.lastLeakTime) / lb.leakRate > lb.tokens then 0
        else lb.tokens - (now - lb.lastLeakTime) / lb.leakRate) = _
      split_ifs <;> omega
    · show lb.lastLeakTime + (now - lb.lastLeakTime) / lb.leakRate * lb.leakRate ≤ now
      omega
    · show now - (lb.lastLeakTime + (now - lb.lastLeakTime) / lb.leakRate * lb.leakRate)
        < lb.leakRate
      omega

theorem C17_leak_step_witness :
    0 < (⟨5, 100000000, 3, 0⟩ : LeakyBucket).leakRate ∧
    1000000000 - (⟨5, 100000000, 3, 0⟩ : LeakyBucket).lastLeakTime ≤ time.maxDuration ∧
    ∃ lb1, (⟨5, 100000000, 3, 0⟩ : LeakyBucket).leak 1000000000 = some lb1 ∧
      lb1.capacity = (⟨5, 100000000, 3, 0⟩ : LeakyBucket).capacity ∧
      lb1.leakRate = (⟨5, 100000000, 3, 0⟩ : LeakyBucket).leakRate ∧
      (0 < (1000000000 - (⟨5, 100000000, 3, 0⟩ : LeakyBucket).lastLeakTime)
            / (⟨5, 100000000, 3, 0⟩ : LeakyBucket).leakRate →
        lb1.tokens = (⟨5, 100000000, 3, 0⟩ : LeakyBucket).tokens
          - min ((1000000000 - (⟨5, 100000000, 3, 0⟩ : LeakyBucket).lastLeakTime)
              / (⟨5, 100000000, 3, 0⟩ : LeakyBucket).leakRate)
            (⟨5, 100000000, 3, 0⟩ : LeakyBucket).tokens ∧
        lb1.lastLeakTime
          = (⟨5, 100000000, 3, 0⟩ : LeakyBucket).lastLeakTime
            + (1000000000 - (⟨5, 100000000, 3, 0⟩ : LeakyBucket).lastLeakTime)
              / (⟨5, 100000000, 3, 0⟩ : LeakyBucket).leakRate
              * (⟨5, 100000000, 3, 0⟩ : LeakyBucket).leakRate ∧
        lb1.lastLeakTime ≤ 1000000000 ∧
        1000000000 - lb1.lastLeakTime < (⟨5, 100000000, 3, 0⟩ : LeakyBucket).leakRate) ∧
      ((1000000000 - (⟨5, 100000000, 3, 0⟩ : LeakyBucket).lastLeakTime)
            / (⟨5, 100000000, 3, 0⟩ : LeakyBucket).leakRate ≤ 0 →
        lb1 = ⟨5, 100000000, 3, 0⟩) :=
  ⟨by decide, by decide, C17_leak_step ⟨5, 100000000, 3, 0⟩ 1000000000 (by decide) (by decide)⟩

end leaky_bucket

namespace leaky_bucket

/-! ## Leaking in two steps -/

/-- C18, as stated, fails when the gap exceeds the largest `Duration`: with a one-second
interval and `lastLeakTime = 0`, leaking at `t1 = 2^63` and again at `t2 = 2^64` drains
18446744072 tokens, a single leak at `t2` drains 9223372036 (`Sub` saturates). -/
theorem C18_counterexample_saturated_gap :
    (0 : Int) ≤ (⟨20000000000, 1000000000, 20000000000, 0⟩ : LeakyBucket).tokens ∧
    (0 : Int) ≤ 9223372036854775808 ∧ (9223372036854775808 : Int) ≤ 18446744073709551616 ∧
    ((⟨20000000000, 1000000000, 20000000000, 0⟩ : LeakyBucket).leak 9223372036854775808).bind
        (fun lb1 => lb1.leak 18446744073709551616)
      = some ⟨20000000000, 1000000000, 1553255928, 18446744072000000000⟩ ∧
    (⟨20000000000, 1000000000, 20000000000, 0⟩ : LeakyBucket).leak 18446744073709551616
      = some ⟨20000000000, 1000000000, 10776627964, 9223372036000000000⟩ := by
  decide

theorem leakBy_leakBy (lb : LeakyBucket) (a b : Int) (hb : 0 < b) :
    leakBy (leakBy lb a) b = leakBy lb (a + b) := by
  have hlast : lb.lastLeakTime + a * lb.leakRate + b * lb.leakRate
      = lb.lastLeakTime + (a + b) * lb.leakRate := by ring
  simp only [leakBy, hlast, LeakyBucket.mk.injEq, true_and, and_true]
  split_ifs <;> omega

/-- C18 (amended). Leaky Bucket leak is drift-free under composition: for every state
with leak interval `I > 0` (with `tokens ≥ 0` in particular) and all clock readings
`lastLeakTime ≤ t1 ≤ t2` with `t2` at most the largest `Duration` after `lastLeakTime`,
`leak` at `t1` followed by `leak` at `t2` leaves exactly the state of a single `leak` at
`t2`, and neither panics. -/
theorem C18_leak_composes (lb : LeakyBucket) (t1 t2 : Int)
    (hI : 0 < lb.leakRate) (h1 : lb.lastLeakTime ≤ t1) (h2 : t1 ≤ t2)
    (hgap : t2 - lb.lastLeakTime ≤ time.maxDuration) :
    (lb.leak t1).bind (fun lb1 => lb1.leak t2) = lb.leak t2 ∧ (lb.leak t2).isSome = true := by
  have hmin : time.minDuration ≤ 0 := by decide
  have hs1 : time.Sub t1 lb.lastLeakTime = t1 - lb.lastLeakTime :=
    sub_exact (by omega) (by omega)
  have hs2 : time.Sub t2 lb.lastLeakTime = t2 - lb.lastLeakTime :=
    sub_exact (by omega) hgap
  refine ⟨?_, by rw [leak_of_pos lb t2 hI]; rfl⟩
  rw [leak_of_pos lb t1 hI, hs1]
  by_cases hle1 : lb.leakRate ≤ t1 - lb.lastLeakTime
  · -- the first leak writes
    obtain ⟨b1, b2, b3, b4, b5⟩ := ediv_bounds hI hle1
    have hle2 : lb.leakRate ≤ t2 - lb.lastLeakTime := by omega
    obtain ⟨c1, c2, c3, c4, c5⟩ := ediv_bounds hI hle2
    rw [if_pos hle1, Option.some_bind, leak_of_pos lb t2 hI, hs2, if_pos hle2]
    generalize hk1 : (t1 - lb.lastLeakTime) / lb.leakRate = k1 at *
    have hrate : (leakBy lb k1).leakRate = lb.leakRate := rfl
    have hlast : (leakBy lb k1).lastLeakTime = lb.lastLeakTime + k1 * lb.leakRate := rfl
    have hI1 : 0 < (leakBy lb k1).leakRate := hI
    have hs3 : time.Sub t2 (leakBy lb k1).lastLeakTime
        = t2 - lb.lastLeakTime - k1 * lb.leakRate := by
      rw [hlast, sub_exact (by omega) (by omega)]; omega
    have hdiv : (t2 - lb.lastLeakTime - k1 * lb.leakRate) / lb.leakRate
        = (t2 - lb.lastLeakTime) / lb.leakRate - k1 := by
      have := Int.add_mul_ediv_right (t2 - lb.lastLeakTime) (-k1) (ne_of_gt hI)
      rw [show t2 - lb.lastLeakTime - k1 * lb.leakRate
        = t2 - lb.lastLeakTime + -k1 * lb.leakRate by ring, this]
      ring
    rw [leak_of_pos (leakBy lb k1) t2 hI1, hs3, hrate, hdiv]
    generalize hk : (t2 - lb.lastLeakTime) / lb.leakRate = k at *
    by_cases hle3 : lb.leakRate ≤ t2 - lb.lastLeakTime - k1 * lb.leakRate
    · -- and so does the second
      rw [if_pos hle3]
      have hpos : 0 < k - k1 := by
        have := (ediv_bounds hI hle3).1
        rw [hdiv] at this
        exact this
      rw [leakBy_leakBy lb k1 (k - k1) hpos]
      congr 2
      omega
    · rw [if_neg hle3]
      have hzero : (t2 - lb.lastLeakTime - k1 * lb.leakRate) / lb.leakRate = 0 :=
        Int.ediv_eq_zero_of_lt (by omega) (by omega)
      rw [hdiv] at hzero
      congr 2
      omega
  · -- the first leak writes nothing
    rw [if_neg hle1, Option.some_bind]

theorem C18_leak_composes_witness :
    0 < (⟨5, 100000000, 4, 0⟩ : LeakyBucket).leakRate ∧
    (⟨5, 100000000, 4, 0⟩ : LeakyBucket).lastLeakTime ≤ 150000000 ∧
    (150000000 : Int) ≤ 310000000 ∧
    310000000 - (⟨5, 100000000, 4, 0⟩ : LeakyBucket).lastLeakTime ≤ time.maxDuration ∧
    (((⟨5, 100000000, 4, 0⟩ : LeakyBucket).leak 150000000).bind
        (fun lb1 => lb1.leak 310000000)
      = (⟨5, 100000000, 4, 0⟩ : LeakyBucket).leak 310000000 ∧
    ((⟨5, 100000000, 4, 0⟩ : LeakyBucket).leak 310000000).isSome = true) :=
  ⟨by decide, by decide, by decide, by decide,
    C18_leak_composes ⟨5, 100000000, 4, 0⟩ 150000000 310000000 (by decide) (by decide)
      (by decide) (by decide)⟩

end leaky_bucket

namespace leaky_bucket

/-! ## The leak interval of a created bucket, and `Take` -/

/-- For a rate from 1 to `10^9` requests per second the leak interval is
`10^9 / requestsPerSecond` ns, between 1 ns and one second. -/
theorem leakRate_of_rate (C requestsPerSecond t0 : Int) (h1 : 1 ≤ requestsPerSecond)
    (h2 : requestsPerSecond ≤ 1000000000) :
    (NewLeakyBucket C requestsPerSecond t0).leakRate = 1000000000 / requestsPerSecond ∧
    0 < (NewLeakyBucket C requestsPerSecond t0).leakRate ∧
    (NewLeakyBucket C requestsPerSecond t0).leakRate ≤ 1000000000 := by
  have hq : Int.tdiv time.Second requestsPerSecond = 1000000000 / requestsPerSecond :=
    Int.tdiv_eq_ediv (by decide) (by omega)
  have hlo : 1 ≤ (1000000000 : Int) / requestsPerSecond :=
    (Int.le_ediv_iff_mul_le (by omega)).2 (by omega)
  have hhi : (1000000000 : Int) / requestsPerSecond ≤ 1000000000 :=
    Int.ediv_le_self _ (by decide)
  have hrate : (NewLeakyBucket C requestsPerSecond t0).leakRate
      = 1000000000 / requestsPerSecond := by
    simp only [NewLeakyBucket, if_neg (not_le.2 (show 0 < requestsPerSecond by omega)), hq]
    apply wrapInt64_of_range
    · simp only [time.minDuration]; omega
    · simp only [time.maxDuration]; omega
  rw [hrate]
  exact ⟨rfl, by omega, hhi⟩

/-- C20 (failing input). `NewLeakyBucket(5, 1000000001)` has leak interval
`time.Second / 1000000001 = 0`, not a positive one, and `Allow` and `Take` panic on the
division `elapsed / lb.leakRate` of `leak`. -/
theorem C20_zero_interval_above_1e9 :
    (0 : Int) < 1000000001 ∧
    (NewLeakyBucket 5 1000000001 0).leakRate = 0 ∧
    (NewLeakyBucket 5 1000000001 0).leak 0 = none ∧
    (NewLeakyBucket 5 1000000001 0).Allow 0 = none ∧
    (NewLeakyBucket 5 1000000001 0).Take (fun t d => t + d) 3 0 0 = TakeResult.panicked := by
  decide

/-- The leak step keeps `lastLeakTime` at or before the clock reading. -/
theorem leak_last_le {lb lb1 : LeakyBucket} {now : Int} (hI : 0 < lb.leakRate)
    (hlast : lb.lastLeakTime ≤ now) (hl : lb.leak now = some lb1) :
    lb1.lastLeakTime ≤ now := by
  rw [leak_of_pos lb now hI] at hl
  by_cases hle : lb.leakRate ≤ time.Sub now lb.lastLeakTime
  · rw [if_pos hle] at hl
    cases hl
    obtain ⟨b1, b2, b3, b4, b5⟩ := ediv_bounds hI hle
    have hd := sub_le_diff_of_pos hI hle
    show lb.lastLeakTime + time.Sub now lb.lastLeakTime / lb.leakRate * lb.leakRate ≤ now
    omega
  · rw [if_neg hle] at hl
    cases hl
    exact hlast

/-- A full bucket read at least one interval after `lastLeakTime` has room after the
leak step. -/
theorem leak_makes_room {lb : LeakyBucket} {now : Int} (hI : 0 < lb.leakRate)
    (hImax : lb.leakRate ≤ time.maxDuration) (hcap : 1 ≤ lb.capacity)
    (hle : lb.tokens ≤ lb.capacity) (hgap : lb.leakRate ≤ now - lb.lastLeakTime) :
    ∃ lb2, lb.leak now = some lb2 ∧ lb2.tokens < lb2.capacity ∧
      lb2.capacity = lb.capacity ∧ lb2.leakRate = lb.leakRate := by
  have hs : lb.leakRate ≤ time.Sub now lb.lastLeakTime := by
    simp only [time.Sub, time.minDuration, time.maxDuration] at *
    split_ifs <;> omega
  obtain ⟨b1, b2, b3, b4, b5⟩ := ediv_bounds hI hs
  rw [leak_of_pos lb now hI, if_pos hs]
  refine ⟨_, rfl, ?_, rfl, rfl⟩
  show (if time.Sub now lb.lastLeakTime / lb.leakRate > lb.tokens then 0
    else lb.tokens - time.Sub now lb.lastLeakTime / lb.leakRate) < lb.capacity
  split_ifs <;> omega

/-- C19. Leaky Bucket Take admission and bounded wait: on a state of a bucket created with
capacity `C ≥ 1` and `requestsPerSecond` in `1..10^9` (so `0 ≤ tokens ≤ C`), read by a
single caller at `now`, not before `lastLeakTime`, where a sleep of `d` begun at `t` wakes
at `sleep t d ≥ t + d`: given two passes or more, `Take` returns; with room after the
leak step it returns at once, having slept zero times, with `tokens` one above the
post-leak count; otherwise it sleeps exactly once, for one leak interval, finds room
after the next leak step and returns with `tokens` one above that post-leak count. -/
theorem C19_take_bounded_wait (C requestsPerSecond t0 : Int) (lb : LeakyBucket) (now : Int)
    (sleep : Int → Int → Int) (fuel : Nat)
    (hC : 1 ≤ C) (h1 : 1 ≤ requestsPerSecond) (h2 : requestsPerSecond ≤ 1000000000)
    (hinv : Inv C (NewLeakyBucket C requestsPerSecond t0).leakRate lb)
    (hlast : lb.lastLeakTime ≤ now) (hsleep : ∀ t d, t + d ≤ sleep t d) (hfuel : 2 ≤ fuel) :
    ∃ lb1, lb.leak now = some lb1 ∧
      (lb1.tokens < lb1.capacity →
        lb.Take sleep fuel now 0
          = TakeResult.returned { lb1 with tokens := lb1.tokens + 1 } now 0) ∧
      (lb1.capacity ≤ lb1.tokens →
        ∃ lb2, lb1.leak (sleep now lb1.leakRate) = some lb2 ∧ lb2.tokens < lb2.capacity ∧
          lb.Take sleep fuel now 0
            = TakeResult.returned { lb2 with tokens := lb2.tokens + 1 }
                (sleep now lb1.leakRate) 1) := by
  obtain ⟨_, hpos, hmax⟩ := leakRate_of_rate C requestsPerSecond t0 h1 h2
  have hrate : lb.leakRate = (NewLeakyBucket C requestsPerSecond t0).leakRate := hinv.2.1
  have hI : 0 < lb.leakRate := by rw [hrate]; exact hpos
  obtain ⟨lb1, hl⟩ := (leak_some_iff lb now).2 (ne_of_gt hI)
  obtain ⟨i1, i2, i3, i4⟩ := leak_inv hinv hl
  have hlast1 := leak_last_le hI hlast hl
  obtain ⟨f, rfl⟩ : ∃ f, fuel = f + 2 := ⟨fuel - 2, by omega⟩
  refine ⟨lb1, hl, ?_, ?_⟩
  · intro hroom
    simp only [LeakyBucket.Take, LeakyBucket.takeIter, hl, if_pos hroom]
  · intro hfull
    have hI1 : 0 < lb1.leakRate := by rw [i2]; exact hpos
    have hw := hsleep now lb1.leakRate
    obtain ⟨lb2, hl2, hroom2, _, _⟩ := @leak_makes_room lb1 (sleep now lb1.leakRate) hI1
      (by rw [i2]; simp only [time.maxDuration]; omega) (by omega) (by omega) (by omega)
    refine ⟨lb2, hl2, hroom2, ?_⟩
    simp only [LeakyBucket.Take, LeakyBucket.takeIter, hl, if_neg (not_lt.2 hfull), hl2,
      if_pos hroom2]

theorem C19_take_bounded_wait_witness :
    (1 : Int) ≤ 3 ∧ (1 : Int) ≤ 10 ∧ (10 : Int) ≤ 1000000000 ∧
    Inv 3 (NewLeakyBucket 3 10 0).leakRate ⟨3, 100000000, 3, 0⟩ ∧
    (⟨3, 100000000, 3, 0⟩ : LeakyBucket).lastLeakTime ≤ 5 ∧
    (∀ t d : Int, t + d ≤ (fun t d => t + d + 7) t d) ∧ 2 ≤ 2 ∧
    ∃ lb1, (⟨3, 100000000, 3, 0⟩ : LeakyBucket).leak 5 = some lb1 ∧
      (lb1.tokens < lb1.capacity →
        (⟨3, 100000000, 3, 0⟩ : LeakyBucket).Take (fun t d => t + d + 7) 2 5 0
          = TakeResult.returned { lb1 with tokens := lb1.tokens + 1 } 5 0) ∧
      (lb1.capacity ≤ lb1.tokens →
        ∃ lb2, lb1.leak ((fun t d => t + d + 7) 5 lb1.leakRate) = some lb2 ∧
          lb2.tokens < lb2.capacity ∧
          (⟨3, 100000000, 3, 0⟩ : LeakyBucket).Take (fun t d => t + d + 7) 2 5 0
            = TakeResult.returned { lb2 with tokens := lb2.tokens + 1 }
                ((fun t d => t + d + 7) 5 lb1.leakRate) 1) :=
  ⟨by decide, by decide, by decide, ⟨by decide, by decide, by decide, by decide⟩, by decide,
    fun t d => (by show t + d ≤ t + d + 7; omega), by decide,
    C19_take_bounded_wait 3 10 0 ⟨3, 100000000, 3, 0⟩ 5 (fun t d => t + d + 7) 2 (by decide)
      (by decide) (by decide) ⟨by decide, by decide, by decide, by decide⟩ (by decide)
      (fun t d => (by show t + d ≤ t + d + 7; omega)) (by decide)⟩

/-- Replays `TestTakeMethod`: capacity 3, ten requests per second; three calls of `Take`
return at once, the fourth sleeps once for 100 ms and returns. -/
theorem test_take_method :
    (NewLeakyBucket 3 10 0).Take (fun t d => t + d) 5 0 0
      = TakeResult.returned ⟨3, 100000000, 1, 0⟩ 0 0 ∧
    (⟨3, 100000000, 1, 0⟩ : LeakyBucket).Take (fun t d => t + d) 5 0 0
      = TakeResult.returned ⟨3, 100000000, 2, 0⟩ 0 0 ∧
    (⟨3, 100000000, 2, 0⟩ : LeakyBucket).Take (fun t d => t + d) 5 0 0
      = TakeResult.returned ⟨3, 100000000, 3, 0⟩ 0 0 ∧
    (⟨3, 100000000, 3, 0⟩ : LeakyBucket).Take (fun t d => t + d) 5 0 0
      = TakeResult.returned ⟨3, 100000000, 3, 100000000⟩ 100000000 1 := by
  decide

end leaky_bucket

namespace fixed_window

/-! ## Fixed-window throttle -/

/-- Replays `TestThrottleCancel`: one call of `handle` waits for the first tick, `cancel`
follows at once, the next `handle` returns `ErrCanceled` and `fn` ran once. -/
theorem test_throttle_cancel :
    (((Throttle 1 0).bind (fun s => s.handle 0 true)).bind
        (fun r => (r.1.cancel r.2.2).bind (fun s => s.handle r.2.2 true))).map
      (fun r => (r.2.1, r.1.dispatched)) = some (Error.ErrCanceled, [1000000000]) := by
  decide

/-- Replays `TestThrottle` at one request per second: five calls in a row are dispatched
at 1 s, 2 s, 3 s, 4 s and 5 s. -/
theorem test_throttle_one_per_second :
    ((Throttle 1 0).bind (fun s => handleSeq s
        [(0, true), (1000000000, true), (2000000000, true), (3000000000, true),
          (4000000000, true)])).map (fun r => (r.1, r.2.dispatched))
      = some ([Error.nil, Error.nil, Error.nil, Error.nil, Error.nil],
          [5000000000, 4000000000, 3000000000, 2000000000, 1000000000]) := by
  decide

theorem elapse_of_stopped (s : ThrottleState) (now : Int) (h : s.stopped = true) :
    s.elapse now = s := by
  simp only [ThrottleState.elapse, h, if_true]

theorem elapse_flags (s : ThrottleState) (now : Int) :
    (s.elapse now).stopped = s.stopped ∧ (s.elapse now).canceled = s.canceled ∧
      (s.elapse now).dispatched = s.dispatched := by
  unfold ThrottleState.elapse
  split_ifs <;> exact ⟨rfl, rfl, rfl⟩

/-- What `cancel` leaves on a state whose ticker is stopped whenever `canceled` is closed. -/
theorem cancel_spec (s : ThrottleState) (now : Int)
    (hwf : s.canceled = true → s.stopped = true) :
    ∃ s1, s.cancel now = some s1 ∧ s1.stopped = true ∧ s1.canceled = true ∧
      s1.dispatched = s.dispatched := by
  obtain ⟨e1, e2, e3⟩ := elapse_flags s now
  by_cases hc : (s.elapse now).canceled = true
  · refine ⟨s.elapse now, ?_, ?_, hc, e3⟩
    · simp only [ThrottleState.cancel, hc, if_true]
    · rw [e1]; exact hwf (by rw [← e2]; exact hc)
  · refine ⟨{ (s.elapse now).Stop with canceled := true }, ?_, rfl, rfl, e3⟩
    have hc1 : (s.elapse now).Stop.canceled = false := by
      simpa [ThrottleState.Stop] using hc
    simp only [ThrottleState.cancel, hc, ThrottleState.closeCanceled, hc1]
    simp

/-- C15. Throttle cancel is idempotent: on every state whose ticker is stopped whenever
`canceled` is closed (every state a throttle reaches), `cancel` returns without panic
and leaves the timer stopped and `canceled` closed; any number of further calls of
`cancel`, at any clock readings, return without reaching `close(canceled)` and leave
that same state. -/
theorem C15_cancel_idempotent (s : ThrottleState) (now : Int) (later : List Int)
    (hwf : s.canceled = true → s.stopped = true) :
    ∃ s1, s.cancel now = some s1 ∧ s1.stopped = true ∧ s1.canceled = true ∧
      cancelSeq s (now :: later) = some s1 := by
  obtain ⟨s1, h1, h2, h3, _⟩ := cancel_spec s now hwf
  refine ⟨s1, h1, h2, h3, ?_⟩
  have hfix : ∀ t, s1.cancel t = some s1 := by
    intro t
    simp only [ThrottleState.cancel, elapse_of_stopped s1 t h2, h3, if_true]
  have hseq : ∀ l : List Int, cancelSeq s1 l = some s1 := by
    intro l
    induction l with
    | nil => rfl
    | cons t rest ih => simp only [cancelSeq, hfix t, ih]
  simp only [cancelSeq, h1, hseq later]

theorem C15_cancel_idempotent_witness :
    ((⟨1000000000, 1000000000, false, false, false, []⟩ : ThrottleState).canceled = true →
      (⟨1000000000, 1000000000, false, false, false, []⟩ : ThrottleState).stopped = true) ∧
    ∃ s1, (⟨1000000000, 1000000000, false, false, false, []⟩ : ThrottleState).cancel 1500000000
        = some s1 ∧ s1.stopped = true ∧ s1.canceled = true ∧
      cancelSeq ⟨1000000000, 1000000000, false, false, false, []⟩
        (1500000000 :: [1500000001, 9000000000]) = some s1 :=
  ⟨by decide,
    C15_cancel_idempotent ⟨1000000000, 1000000000, false, false, false, []⟩ 1500000000
      [1500000001, 9000000000] (by decide)⟩

/-- The state conditions of a throttle: the ticker is stopped exactly when `canceled` is
closed, and a stopped ticker has no tick waiting. -/
theorem throttle_new_flags {limit now : Int} {s : ThrottleState} (h : Throttle limit now = some s) :
    s.stopped = false ∧ s.canceled = false ∧ 0 < s.period := by
  unfold Throttle at h
  split_ifs at h with h1 h2
  cases h
  exact ⟨rfl, rfl, by simpa using h2⟩

theorem handle_flags {s s1 : ThrottleState} {now t : Int} {pick : Bool} {r : Error}
    (h : s.handle now pick = some (s1, r, t)) :
    s1.stopped = s.stopped ∧ s1.canceled = s.canceled := by
  obtain ⟨e1, e2, _⟩ := elapse_flags s now
  unfold ThrottleState.handle at h
  simp only at h
  split_ifs at h <;> cases h <;> exact ⟨e1, e2⟩

/-- After `cancel` nothing waits in `ticker.C`, given that nothing waited there in an
already cancelled state. -/
theorem cancel_no_tick (s : ThrottleState) (now : Int)
    (hwf : s.canceled = true → s.stopped = true ∧ s.tick = false) :
    ∃ s1, s.cancel now = some s1 ∧ s1.stopped = true ∧ s1.canceled = true ∧
      s1.tick = false ∧ s1.dispatched = s.dispatched := by
  obtain ⟨e1, e2, e3⟩ := elapse_flags s now
  by_cases hc : (s.elapse now).canceled = true
  · have hs := hwf (by rw [← e2]; exact hc)
    refine ⟨s.elapse now, ?_, ?_, hc, ?_, e3⟩
    · simp only [ThrottleState.cancel, hc, if_true]
    · rw [e1]; exact hs.1
    · rw [elapse_of_stopped s now hs.1]; exact hs.2
  · refine ⟨{ (s.elapse now).Stop with canceled := true }, ?_, rfl, rfl, rfl, e3⟩
    have hc1 : (s.elapse now).Stop.canceled = false := by
      simpa [ThrottleState.Stop] using hc
    simp only [ThrottleState.cancel, hc, ThrottleState.closeCanceled, hc1]
    simp

/-- A `handle` on a throttle that is cancelled with no tick waiting returns `ErrCanceled`
at once and changes nothing. -/
theorem handle_of_canceled (s : ThrottleState) (now : Int) (pick : Bool)
    (hs : s.stopped = true) (hc : s.canceled = true) (ht : s.tick = false) :
    s.handle now pick = some (s, Error.ErrCanceled, now) := by
  simp [ThrottleState.handle, elapse_of_stopped s now hs, ht, hc]

theorem handleSeq_of_canceled (calls : List (Int × Bool)) (s : ThrottleState)
    (hs : s.stopped = true) (hc : s.canceled = true) (ht : s.tick = false) :
    handleSeq s calls = some (List.replicate calls.length Error.ErrCanceled, s) := by
  induction calls with
  | nil => rfl
  | cons c rest ih =>
    obtain ⟨now, pick⟩ := c
    simp only [handleSeq, handle_of_canceled s now pick hs hc ht, ih, List.length_cons,
      List.replicate_succ]

/-- Every state a throttle reaches by calls of `handle` and `cancel` has its ticker stopped
exactly when `canceled` is closed, and then no tick waiting. -/
theorem reachable_flags (calls : List (Call × Int)) :
    ∀ s s1 : ThrottleState, s.canceled = s.stopped → (s.stopped = true → s.tick = false) →
      runCalls s calls = some s1 →
      s1.canceled = s1.stopped ∧ (s1.stopped = true → s1.tick = false) := by
  induction calls with
  | nil =>
    intro s s1 h ht hr
    simp only [runCalls, Option.some.injEq] at hr
    rw [← hr]; exact ⟨h, ht⟩
  | cons c rest ih =>
    intro s s1 h ht hr
    obtain ⟨op, now⟩ := c
    simp only [runCalls] at hr
    cases hstep : Call.run s now op with
    | none => simp [hstep] at hr
    | some s2 =>
      simp only [hstep] at hr
      cases op with
      | handle pick =>
        simp only [Call.run, Option.map_eq_some'] at hstep
        obtain ⟨⟨a, r, t⟩, ha, rfl⟩ := hstep
        obtain ⟨f1, f2⟩ := handle_flags ha
        refine ih a s1 (by rw [f1, f2]; exact h) ?_ hr
        intro hst
        rw [f1] at hst
        rw [handle_of_canceled s now pick hst (by rw [h]; exact hst) (ht hst)] at ha
        cases ha
        exact ht hst
      | cancel =>
        obtain ⟨s3, c1, c2, c3, c4, _⟩ := cancel_no_tick s now
          (fun hc => ⟨by rw [← h]; exact hc, ht (by rw [← h]; exact hc)⟩)
        simp only [Call.run] at hstep
        rw [c1] at hstep
        cases hstep
        exact ih s2 s1 (by rw [c2, c3]) (fun _ => c4) hr

theorem throttle_reachable_flags {limit t0 : Int} {s0 s : ThrottleState}
    (calls : List (Call × Int)) (h0 : Throttle limit t0 = some s0)
    (hr : runCalls s0 calls = some s) :
    s.canceled = s.stopped ∧ (s.stopped = true → s.tick = false) := by
  obtain ⟨f1, f2, _⟩ := throttle_new_flags h0
  exact reachable_flags calls s0 s (by rw [f1, f2]) (fun hst => by rw [f1] at hst; cases hst) hr

/-! ## `handle` after `cancel` -/

/-- C14. Throttle cancellation: from every state a throttle reaches (a cancelled one has
its ticker stopped and no tick waiting), whatever ticks the ticker has produced before,
once `cancel()` has returned every later `handle()`, however `select` chooses, returns
`ErrCanceled` at once, never `nil`, and leaves the state as the cancel left it: `fn` is
never dispatched again. -/
theorem C14_handle_after_cancel (s0 s : ThrottleState) (now : Int) (calls : List (Int × Bool))
    (hwf : s0.canceled = true → s0.stopped = true ∧ s0.tick = false)
    (hcancel : s0.cancel now = some s) :
    handleSeq s calls = some (List.replicate calls.length Error.ErrCanceled, s) ∧
      s.dispatched = s0.dispatched := by
  obtain ⟨s1, h1, h2, h3, h4, h5⟩ := cancel_no_tick s0 now hwf
  rw [hcancel] at h1
  cases h1
  exact ⟨handleSeq_of_canceled calls s h2 h3 h4, h5⟩

theorem C14_handle_after_cancel_witness :
    ((⟨1000000000, 1000000000, false, false, false, []⟩ : ThrottleState).canceled = true →
      (⟨1000000000, 1000000000, false, false, false, []⟩ : ThrottleState).stopped = true ∧
        (⟨1000000000, 1000000000, false, false, false, []⟩ : ThrottleState).tick = false) ∧
    (⟨1000000000, 1000000000, false, false, false, []⟩ : ThrottleState).cancel 1500000000
      = some ⟨1000000000, 2000000000, false, true, true, []⟩ ∧
    handleSeq ⟨1000000000, 2000000000, false, true, true, []⟩
        [(1500000000, true), (5000000000, false)]
      = some (List.replicate [((1500000000 : Int), true), (5000000000, false)].length
          Error.ErrCanceled, ⟨1000000000, 2000000000, false, true, true, []⟩) ∧
    (⟨1000000000, 2000000000, false, true, true, []⟩ : ThrottleState).dispatched
      = (⟨1000000000, 1000000000, false, false, false, []⟩ : ThrottleState).dispatched :=
  ⟨by decide, by decide,
    C14_handle_after_cancel ⟨1000000000, 1000000000, false, false, false, []⟩
      ⟨1000000000, 2000000000, false, true, true, []⟩ 1500000000
      [(1500000000, true), (5000000000, false)] (by decide) (by decide)⟩

/-! ## The rate ceiling -/

/-- C16 (failing input). `Throttle(1, fn)` is created at 0 and left idle while the tick of
1 s fills `ticker.C`; two calls of `handle` in a row at 2.9 s are dispatched at 2.9 s (the
waiting tick) and at 3 s (the next tick): 0.1 s apart, less than the period of 1 s, and
twice within one second at `limit = 1`. -/
theorem C16_two_dispatches_within_period :
    (Throttle 1 0).map (fun s => s.period) = some 1000000000 ∧
    ((Throttle 1 0).bind (fun s => handleSeq s [(2900000000, true), (2900000000, true)])).map
        (fun r => (r.1, r.2.dispatched))
      = some ([Error.nil, Error.nil], [3000000000, 2900000000]) ∧
    (3000000000 : Int) - 2900000000 < 1000000000 := by
  decide

end fixed_window

namespace float64

/-! ## Rounding to `float64` -/

theorem bitLengthAux_zero (fuel : Nat) : bitLengthAux fuel 0 = 0 := by
  cases fuel <;> simp [bitLengthAux]

theorem bitLengthAux_lt (fuel : Nat) : ∀ n, n ≤ fuel → n < 2 ^ bitLengthAux fuel n := by
  induction fuel with
  | zero => intro n h; simp [bitLengthAux]; omega
  | succ f ih =>
    intro n h
    by_cases h0 : n = 0
    · simp [bitLengthAux, h0]
    · simp only [bitLengthAux, if_neg h0, pow_succ]
      have := ih (n / 2) (by omega)
      omega

theorem bitLengthAux_le (fuel : Nat) :
    ∀ n, n ≤ fuel → n ≠ 0 → 2 ^ (bitLengthAux fuel n - 1) ≤ n := by
  induction fuel with
  | zero => intro n h h0; omega
  | succ f ih =>
    intro n h h0
    simp only [bitLengthAux, if_neg h0, Nat.add_sub_cancel]
    by_cases h2 : n / 2 = 0
    · rw [h2, bitLengthAux_zero]; simp; omega
    · have h1 := ih (n / 2) (by omega) h2
      have hpos : 1 ≤ bitLengthAux f (n / 2) := by
        cases f with
        | zero => omega
        | succ g => simp only [bitLengthAux, if_neg h2]; omega
      have : 2 ^ bitLengthAux f (n / 2) = 2 * 2 ^ (bitLengthAux f (n / 2) - 1) := by
        conv_lhs => rw [show bitLengthAux f (n / 2) = (bitLengthAux f (n / 2) - 1) + 1 by omega]
        rw [pow_succ]; ring
      omega

theorem bitLength_lt (n : Nat) : n < 2 ^ bitLength n := bitLengthAux_lt n n (le_refl _)

theorem bitLength_le (n : Nat) (h : n ≠ 0) : 2 ^ (bitLength n - 1) ≤ n :=
  bitLengthAux_le n n (le_refl _) h

theorem pow_two_lt (a b : Nat) (h : a < b) : 2 ^ a < 2 ^ b :=
  Nat.pow_lt_pow_right (by decide) h

theorem roundHalfEven_of_dvd (n d : Nat) (hd : 0 < d) (h : d ∣ n) :
    roundHalfEven n d = n / d := by
  have : n % d = 0 := Nat.mod_eq_zero_of_dvd h
  simp [roundHalfEven, this, hd]

/-- A whole number up to `2^53` in size, scaled by `2^1074`, is its own rounding. -/
theorem roundScaled_nat (k : Nat) (hk : k ≤ 9007199254740992) :
    roundScaled k 1 = k * 2 ^ 1074 := by
  unfold roundScaled
  simp only [Nat.div_one, one_mul]
  split_ifs with hb
  · rw [roundHalfEven_of_dvd _ 1 (by decide) (one_dvd _), Nat.div_one]
  · have hN : k * 2 ^ 1074 ≠ 0 := by
      intro h0
      rw [h0] at hb
      exact hb (by simp [bitLength, bitLengthAux_zero])
    have hlow := bitLength_le _ hN
    have hdvd : 2 ^ (bitLength (k * 2 ^ 1074) - 53) ∣ k * 2 ^ 1074 := by
      have hmax : k * 2 ^ 1074 ≤ 2 ^ 1127 := by
        have : (2 : Nat) ^ 1127 = 9007199254740992 * 2 ^ 1074 := by
          rw [show (9007199254740992 : Nat) = 2 ^ 53 by norm_num, ← pow_add]
        rw [this]
        exact Nat.mul_le_mul_right _ hk
      have hb1 : bitLength (k * 2 ^ 1074) - 1 ≤ 1127 := by
        have h2 : 2 ^ (bitLength (k * 2 ^ 1074) - 1) ≤ 2 ^ 1127 := le_trans hlow hmax
        by_contra hcon
        have h3 : 2 ^ 1127 < 2 ^ (bitLength (k * 2 ^ 1074) - 1) :=
          pow_two_lt 1127 _ (by omega)
        exact absurd h2 (not_le.2 h3)
      by_cases hj : bitLength (k * 2 ^ 1074) - 53 ≤ 1074
      · have hd : 2 ^ (bitLength (k * 2 ^ 1074) - 53) ∣ 2 ^ 1074 := Nat.pow_dvd_pow 2 hj
        exact dvd_mul_of_dvd_right hd k
      · have hbe : bitLength (k * 2 ^ 1074) = 1128 := by omega
        rw [hbe] at hlow
        have hk2 : k * 2 ^ 1074 = 2 ^ 1127 := le_antisymm hmax hlow
        rw [hbe, hk2]
        exact Nat.pow_dvd_pow 2 (by decide)
    rw [roundHalfEven_of_dvd _ _ (by positivity) hdvd]
    exact Nat.div_mul_cancel hdvd

theorem nearest_natCast (k : Nat) (hk : k ≤ 9007199254740992) :
    nearest (k : ℚ) = Float64.finite k := by
  have hnum : ((k : ℚ)).num.natAbs = k := by simp
  have hden : ((k : ℚ)).den = 1 := by simp
  have hneg : ¬ ((k : ℚ) < 0) := by simp
  unfold nearest
  rw [hnum, hden, roundScaled_nat k hk]
  have hlt : ¬ (2 ^ 2098 ≤ k * 2 ^ 1074) := by
    have : (2 : Nat) ^ 2098 = 2 ^ 1024 * 2 ^ 1074 := by rw [← pow_add]
    rw [this, not_le]
    apply Nat.mul_lt_mul_of_lt_of_le' _ (le_refl _) (by positivity)
    have h53 : (2 : Nat) ^ 53 < 2 ^ 1024 := pow_two_lt 53 1024 (by decide)
    rw [show (2 : Nat) ^ 53 = 9007199254740992 by norm_num] at h53
    exact lt_of_le_of_lt hk h53
  rw [if_neg hlt, if_neg hneg]
  apply congrArg
  push_cast
  exact mul_div_cancel_right₀ _ (pow_ne_zero _ (by norm_num))

end float64

namespace token_bucket64

/-! ## The token bucket in `float64` -/

theorem seconds_zero : float64.Seconds 0 = float64.Float64.finite 0 := by decide!

theorem nearest_zero : float64.nearest 0 = float64.Float64.finite 0 := by decide!

theorem ofInt_one : float64.ofInt 1 = float64.Float64.finite 1 := by decide!

theorem ofInt_natCast (k : Nat) (hk : k ≤ 9007199254740992) :
    float64.ofInt (k : Int) = float64.Float64.finite k := by
  unfold float64.ofInt
  rw [Int.cast_natCast]
  exact float64.nearest_natCast k hk

/-- One `Allow(1)` at the reading of the last refill, with a finite refill rate, on a
bucket holding `m` whole tokens out of at most `2^53`. -/
theorem allow_one_same_reading64 (tb : TokenBucket) (m c : Nat) (r : ℚ)
    (htok : tb.tokens = float64.Float64.finite m) (hmax : tb.maxTokens = float64.Float64.finite c)
    (hrate : tb.refillRate = float64.Float64.finite r) (hle : m ≤ c)
    (hc : c ≤ 9007199254740992) :
    (tb.Allow (float64.ofInt 1) tb.lastRefillTime).2 = decide (0 < m) ∧
    (tb.Allow (float64.ofInt 1) tb.lastRefillTime).1.tokens
      = float64.Float64.finite ((m - 1 : Nat) : ℚ) ∧
    (tb.Allow (float64.ofInt 1) tb.lastRefillTime).1.maxTokens = tb.maxTokens ∧
    (tb.Allow (float64.ofInt 1) tb.lastRefillTime).1.refillRate = tb.refillRate ∧
    (tb.Allow (float64.ofInt 1) tb.lastRefillTime).1.lastRefillTime = tb.lastRefillTime := by
  have hm : m ≤ 9007199254740992 := le_trans hle hc
  have hsum : float64.add tb.tokens
      (float64.mul (float64.Seconds (time.Sub tb.lastRefillTime tb.lastRefillTime)) tb.refillRate)
      = float64.Float64.finite m := by
    rw [token_bucket.sub_self_eq_zero, seconds_zero, hrate, htok]
    simp only [float64.mul, zero_mul, nearest_zero, float64.add, add_zero]
    exact float64.nearest_natCast m hm
  have hr : (tb.refill tb.lastRefillTime).tokens = float64.Float64.finite m := by
    show (if float64.lt tb.maxTokens (float64.add tb.tokens
        (float64.mul (float64.Seconds (time.Sub tb.lastRefillTime tb.lastRefillTime))
          tb.refillRate)) = true then tb.maxTokens
      else float64.add tb.tokens
        (float64.mul (float64.Seconds (time.Sub tb.lastRefillTime tb.lastRefillTime))
          tb.refillRate)) = _
    rw [hsum, hmax]
    have : float64.lt (float64.Float64.finite c) (float64.Float64.finite m) = false := by
      simp only [float64.lt, decide_eq_false_iff_not, not_lt]
      exact_mod_cast hle
    rw [this]
    simp
  by_cases h : float64.le (float64.ofInt 1) (tb.refill tb.lastRefillTime).tokens = true
  · have ha : tb.Allow (float64.ofInt 1) tb.lastRefillTime
        = ({ tb.refill tb.lastRefillTime with
              tokens := float64.sub (tb.refill tb.lastRefillTime).tokens (float64.ofInt 1) },
            true) := by
      unfold TokenBucket.Allow
      exact if_pos h
    rw [hr, ofInt_one] at h
    simp only [float64.le, decide_eq_true_eq] at h
    have hm1 : 1 ≤ m := by exact_mod_cast h
    rw [ha]
    refine ⟨?_, ?_, rfl, rfl, rfl⟩
    · simp only [decide_eq_true_eq, eq_comm]; simpa using hm1
    · show float64.sub (tb.refill tb.lastRefillTime).tokens (float64.ofInt 1) = _
      rw [hr, ofInt_one]
      simp only [float64.sub, float64.neg, float64.add]
      have : ((m : ℚ) + -1) = ((m - 1 : Nat) : ℚ) := by
        rw [Nat.cast_sub hm1]; simp; ring
      rw [this]
      exact float64.nearest_natCast (m - 1) (by omega)
  · have ha : tb.Allow (float64.ofInt 1) tb.lastRefillTime
        = (tb.refill tb.lastRefillTime, false) := by
      unfold TokenBucket.Allow
      exact if_neg h
    rw [hr, ofInt_one] at h
    simp only [float64.le, decide_eq_true_eq] at h
    have hm0 : m = 0 := by
      by_contra hne
      exact h (by exact_mod_cast Nat.one_le_iff_ne_zero.2 hne)
    rw [ha]
    refine ⟨?_, ?_, rfl, rfl, rfl⟩
    · simp [hm0]
    · show (tb.refill tb.lastRefillTime).tokens = _
      rw [hr, hm0]

theorem burst_flags64 (n : Nat) :
    ∀ (tb : TokenBucket) (m c : Nat) (r : ℚ), tb.tokens = float64.Float64.finite m →
      tb.maxTokens = float64.Float64.finite c → tb.refillRate = float64.Float64.finite r →
      m ≤ c → c ≤ 9007199254740992 →
      (allowSeq tb (List.replicate n (float64.ofInt 1, tb.lastRefillTime))).map Prod.fst
        = (List.range n).map (fun i : Nat => decide (i < m)) := by
  induction n with
  | zero => intro tb m c r _ _ _ _ _; rfl
  | succ n ih =>
    intro tb m c r htok hmax hrate hle hc
    obtain ⟨a1, a2, a3, a4, a5⟩ := allow_one_same_reading64 tb m c r htok hmax hrate hle hc
    have hrest := ih (tb.Allow (float64.ofInt 1) tb.lastRefillTime).1 (m - 1) c r a2
      (by rw [a3]; exact hmax) (by rw [a4]; exact hrate) (by omega) hc
    rw [a5] at hrest
    have key : List.map ((fun i : Nat => decide (i < m)) ∘ Nat.succ) (List.range n)
        = List.map (fun i : Nat => decide (i < m - 1)) (List.range n) := by
      apply List.map_congr_left
      intro i _
      simp only [Function.comp, Nat.succ_eq_add_one]
      apply Bool.decide_congr
      omega
    simp only [List.replicate_succ, allowSeq, List.map_cons, hrest, a1, List.range_succ_eq_map,
      List.map_map, key]

theorem new_fields (maxTokens refillRate : float64.Float64) (now : Int) :
    (NewTokenBucket maxTokens refillRate now).tokens = maxTokens ∧
    (NewTokenBucket maxTokens refillRate now).maxTokens = maxTokens ∧
    (NewTokenBucket maxTokens refillRate now).refillRate = refillRate ∧
    (NewTokenBucket maxTokens refillRate now).lastRefillTime = now :=
  ⟨rfl, rfl, rfl, rfl⟩

/-- A call that leaves the state as it was and returns `true` does so every time. -/
theorem fixed_point_flags (tb : TokenBucket) (cost : float64.Float64) (now : Int)
    (h : tb.Allow cost now = (tb, true)) (n : Nat) :
    (allowSeq tb (List.replicate n (cost, now))).map Prod.fst = List.replicate n true := by
  induction n with
  | zero => rfl
  | succ n ih =>
    simp only [List.replicate_succ, allowSeq, List.map_cons, h, ih]

/-! ## The decision of `Allow` in `float64` -/

/-- C11, as stated, fails on the code in two ways. Rounding: a bucket holding the
`float64` 0.2 with one token per second, read 100 ms after the last refill, has the
claim's `r = 0.2 + 0.1` below the cost 0.30000000000000004 (the next `float64` above
0.3), yet the `float64` sum is that very cost and `Allow` returns `true`. Saturation:
read `2^64` ns after the last refill with no tokens, the claim's `r` is above the cost
`10^10`, yet `Sub` saturates at `2^63 - 1` ns and `Allow` returns `false`. -/
theorem C11_counterexample_rounding_and_saturation :
    float64.nearest (3602879701896397 / 18014398509481984)
      = float64.Float64.finite (3602879701896397 / 18014398509481984) ∧
    float64.nearest (1351079888211149 / 4503599627370496)
      = float64.Float64.finite (1351079888211149 / 4503599627370496) ∧
    min (5 : ℚ) (3602879701896397 / 18014398509481984
        + ((100000000 - 0 : Int) : ℚ) / 1000000000 * 1)
      < 1351079888211149 / 4503599627370496 ∧
    ((⟨float64.Float64.finite (3602879701896397 / 18014398509481984), float64.ofInt 5,
        float64.ofInt 1, 0⟩ : TokenBucket).Allow
      (float64.Float64.finite (1351079888211149 / 4503599627370496)) 100000000).2 = true ∧
    min (100000000000 : ℚ) (0 + ((18446744073709551616 - 0 : Int) : ℚ) / 1000000000 * 1)
      ≥ 10000000000 ∧
    ((⟨float64.ofInt 0, float64.ofInt 100000000000, float64.ofInt 1, 0⟩ : TokenBucket).Allow
      (float64.ofInt 10000000000) 18446744073709551616).2 = false := by
  refine ⟨by decide!, by decide!, by norm_num, by decide!, by norm_num, by decide!⟩

/-- C11 (amended). Token Bucket Allow postcondition, in `float64`: for every bucket state,
cost and clock reading `now`, let `d` be `now.Sub(lastRefillTime).Seconds()`, the
difference saturated to the range of a `Duration` (the difference itself when it fits),
and let `r` be the `float64` sum `tokens + d * refillRate`, replaced by `maxTokens` when
it is greater (so `min(maxTokens, sum)` for finite values); `Allow(cost)` returns `true`
iff `r >= cost` in `float64`; on `true` the new `tokens` is the `float64` difference
`r - cost`, on `false` it is `r`; in both cases `lastRefillTime` becomes `now` and the
other fields stay. -/
theorem C11_allow_postcondition_float64 (tb : TokenBucket) (cost : float64.Float64)
    (now : Int) :
    (tb.Allow cost now).2 = float64.le cost
      (if float64.lt tb.maxTokens (float64.add tb.tokens
          (float64.mul (float64.Seconds (time.Sub now tb.lastRefillTime)) tb.refillRate)) = true
        then tb.maxTokens
        else float64.add tb.tokens
          (float64.mul (float64.Seconds (time.Sub now tb.lastRefillTime)) tb.refillRate)) ∧
    ((tb.Allow cost now).2 = true → (tb.Allow cost now).1.tokens = float64.sub
      (if float64.lt tb.maxTokens (float64.add tb.tokens
          (float64.mul (float64.Seconds (time.Sub now tb.lastRefillTime)) tb.refillRate)) = true
        then tb.maxTokens
        else float64.add tb.tokens
          (float64.mul (float64.Seconds (time.Sub now tb.lastRefillTime)) tb.refillRate))
      cost) ∧
    ((tb.Allow cost now).2 = false → (tb.Allow cost now).1.tokens =
      (if float64.lt tb.maxTokens (float64.add tb.tokens
          (float64.mul (float64.Seconds (time.Sub now tb.lastRefillTime)) tb.refillRate)) = true
        then tb.maxTokens
        else float64.add tb.tokens
          (float64.mul (float64.Seconds (time.Sub now tb.lastRefillTime)) tb.refillRate))) ∧
    (tb.Allow cost now).1.lastRefillTime = now ∧
    (tb.Allow cost now).1.maxTokens = tb.maxTokens ∧
    (tb.Allow cost now).1.refillRate = tb.refillRate ∧
    (∀ a b : ℚ, tb.maxTokens = float64.Float64.finite a →
      float64.add tb.tokens
          (float64.mul (float64.Seconds (time.Sub now tb.lastRefillTime)) tb.refillRate)
        = float64.Float64.finite b →
      (tb.refill now).tokens = float64.Float64.finite (min a b)) ∧
    (time.minDuration ≤ now - tb.lastRefillTime → now - tb.lastRefillTime ≤ time.maxDuration →
      time.Sub now tb.lastRefillTime = now - tb.lastRefillTime) := by
  have hr : (tb.refill now).tokens =
      (if float64.lt tb.maxTokens (float64.add tb.tokens
          (float64.mul (float64.Seconds (time.Sub now tb.lastRefillTime)) tb.refillRate)) = true
        then tb.maxTokens
        else float64.add tb.tokens
          (float64.mul (float64.Seconds (time.Sub now tb.lastRefillTime)) tb.refillRate)) := rfl
  have hmin : ∀ a b : ℚ, tb.maxTokens = float64.Float64.finite a →
      float64.add tb.tokens
          (float64.mul (float64.Seconds (time.Sub now tb.lastRefillTime)) tb.refillRate)
        = float64.Float64.finite b →
      (tb.refill now).tokens = float64.Float64.finite (min a b) := by
    intro a b ha hb
    rw [hr, hb, ha]
    simp only [float64.lt, decide_eq_true_eq]
    split_ifs with h
    · rw [min_eq_left h.le]
    · rw [min_eq_right (not_lt.1 h)]
  rw [← hr]
  by_cases h : float64.le cost (tb.refill now).tokens = true
  · have ha : tb.Allow cost now
        = ({ tb.refill now with tokens := float64.sub (tb.refill now).tokens cost }, true) := by
      unfold TokenBucket.Allow
      exact if_pos h
    rw [ha]
    exact ⟨h.symm, fun _ => rfl, fun hf => (by cases hf), rfl, rfl, rfl, hmin,
      fun h1 h2 => sub_exact h1 h2⟩
  · have ha : tb.Allow cost now = (tb.refill now, false) := by
      unfold TokenBucket.Allow
      exact if_neg h
    rw [ha]
    exact ⟨(Bool.eq_false_iff.2 h).symm, fun hf => (by cases hf), fun _ => rfl, rfl, rfl, rfl,
      hmin, fun h1 h2 => sub_exact h1 h2⟩

theorem C11_allow_postcondition_float64_witness :
    ((⟨float64.ofInt 2, float64.ofInt 5, float64.ofInt 1, 0⟩ : TokenBucket).Allow
        (float64.ofInt 3) 1500000000).2 = true ∧
    ((⟨float64.ofInt 2, float64.ofInt 5, float64.ofInt 1, 0⟩ : TokenBucket).Allow
        (float64.ofInt 3) 1500000000).1.tokens
      = float64.sub
          (if float64.lt (⟨float64.ofInt 2, float64.ofInt 5, float64.ofInt 1, 0⟩ :
                TokenBucket).maxTokens
              (float64.add (⟨float64.ofInt 2, float64.ofInt 5, float64.ofInt 1, 0⟩ :
                  TokenBucket).tokens
                (float64.mul (float64.Seconds (time.Sub 1500000000
                    (⟨float64.ofInt 2, float64.ofInt 5, float64.ofInt 1, 0⟩ :
                      TokenBucket).lastRefillTime))
                  (⟨float64.ofInt 2, float64.ofInt 5, float64.ofInt 1, 0⟩ :
                    TokenBucket).refillRate)) = true
            then (⟨float64.ofInt 2, float64.ofInt 5, float64.ofInt 1, 0⟩ :
                TokenBucket).maxTokens
            else float64.add (⟨float64.ofInt 2, float64.ofInt 5, float64.ofInt 1, 0⟩ :
                  TokenBucket).tokens
                (float64.mul (float64.Seconds (time.Sub 1500000000
                    (⟨float64.ofInt 2, float64.ofInt 5, float64.ofInt 1, 0⟩ :
                      TokenBucket).lastRefillTime))
                  (⟨float64.ofInt 2, float64.ofInt 5, float64.ofInt 1, 0⟩ :
                    TokenBucket).refillRate))
          (float64.ofInt 3) ∧
    ((⟨float64.ofInt 2, float64.ofInt 5, float64.ofInt 1, 0⟩ : TokenBucket).Allow
        (float64.ofInt 3) 1500000000).1.tokens = float64.Float64.finite (1 / 2) ∧
    time.Sub 1500000000 (⟨float64.ofInt 2, float64.ofInt 5, float64.ofInt 1, 0⟩ :
        TokenBucket).lastRefillTime
      = 1500000000 - (⟨float64.ofInt 2, float64.ofInt 5, float64.ofInt 1, 0⟩ :
        TokenBucket).lastRefillTime :=
  ⟨by decide!,
    (C11_allow_postcondition_float64 ⟨float64.ofInt 2, float64.ofInt 5, float64.ofInt 1, 0⟩
      (float64.ofInt 3) 1500000000).2.1 (by decide!),
    by decide!,
    (C11_allow_postcondition_float64 ⟨float64.ofInt 2, float64.ofInt 5, float64.ofInt 1, 0⟩
      (float64.ofInt 3) 1500000000).2.2.2.2.2.2.2 (by decide) (by decide)⟩

/-! ## A burst on a fresh token bucket, in `float64` -/

/-- C13, as stated, fails on the code in two ways. With `refillRate = +Inf` the refill
at the creation instant adds `0 * Inf = NaN`, `tokens` becomes NaN and none of four
calls `Allow(1)` on `NewTokenBucket(3, +Inf)` succeeds, not three. With `C = 2^54` the
`float64` difference `2^54 - 1` rounds back to `2^54`, `Allow(1)` leaves `tokens` as it
was, and all of `2^54 + 1` calls succeed, not `2^54`. -/
theorem C13_counterexample_inf_rate_and_large_count :
    ((allowSeq (NewTokenBucket (float64.ofInt 3) (float64.Float64.inf false) 0)
        (List.replicate 4 (float64.ofInt 1, 0))).map Prod.fst).count true = 0 ∧
    float64.ofInt 18014398509481984 = float64.Float64.finite 18014398509481984 ∧
    ((allowSeq (NewTokenBucket (float64.ofInt 18014398509481984) (float64.ofInt 1) 0)
        (List.replicate 18014398509481985 (float64.ofInt 1, 0))).map Prod.fst).count true
      = 18014398509481985 := by
  refine ⟨by decide!, by decide!, ?_⟩
  rw [fixed_point_flags _ _ _ (by decide!), List.count_replicate_self]

/-- C13 (amended). Token Bucket starts full and bounds a burst, in `float64`:
`NewTokenBucket(C, r)` has `tokens = maxTokens = C`, and for every finite `refillRate`,
every whole number `C` from 0 to `2^53` and every `n > C`, of `n` calls `Allow(1)` that
all read the creation instant the `i`-th returns `true` iff `i ≤ C`: exactly `C`
successes and `n - C` failures. -/
theorem C13_token_bucket_burst_float64 (C n : Nat) (r : ℚ) (t0 : Int)
    (hC : C ≤ 9007199254740992) (hn : C < n) :
    (NewTokenBucket (float64.ofInt C) (float64.Float64.finite r) t0).tokens
      = float64.Float64.finite C ∧
    (NewTokenBucket (float64.ofInt C) (float64.Float64.finite r) t0).maxTokens
      = float64.Float64.finite C ∧
    (allowSeq (NewTokenBucket (float64.ofInt C) (float64.Float64.finite r) t0)
        (List.replicate n (float64.ofInt 1, t0))).map Prod.fst
      = (List.range n).map (fun i : Nat => decide (i + 1 ≤ C)) ∧
    ((allowSeq (NewTokenBucket (float64.ofInt C) (float64.Float64.finite r) t0)
        (List.replicate n (float64.ofInt 1, t0))).map Prod.fst).count true = C ∧
    ((allowSeq (NewTokenBucket (float64.ofInt C) (float64.Float64.finite r) t0)
        (List.replicate n (float64.ofInt 1, t0))).map Prod.fst).count false = n - C := by
  have hof := ofInt_natCast C hC
  have htok := (new_fields (float64.ofInt C) (float64.Float64.finite r) t0).1.trans hof
  have hmax := (new_fields (float64.ofInt C) (float64.Float64.finite r) t0).2.1.trans hof
  have hflags := burst_flags64 n (NewTokenBucket (float64.ofInt C) (float64.Float64.finite r) t0)
    C C r htok hmax (new_fields _ _ _).2.2.1 (le_refl _) hC
  rw [(new_fields (float64.ofInt C) (float64.Float64.finite r) t0).2.2.2] at hflags
  have hcount := token_bucket.count_true_below_nat C n
  have hsum := List.count_true_add_count_false
    ((List.range n).map (fun i : Nat => decide (i < C)))
  rw [List.length_map, List.length_range] at hsum
  refine ⟨htok, hmax, ?_, ?_, ?_⟩
  · rw [hflags]
    apply List.map_congr_left
    intro i _
    apply Bool.decide_congr
    omega
  · rw [hflags, hcount]; omega
  · rw [hflags]; omega

theorem C13_token_bucket_burst_float64_witness :
    (3 : Nat) ≤ 9007199254740992 ∧ (3 : Nat) < 5 ∧
    ((NewTokenBucket (float64.ofInt (3 : Nat)) (float64.Float64.finite 2) 7).tokens
      = float64.Float64.finite (3 : Nat) ∧
    (NewTokenBucket (float64.ofInt (3 : Nat)) (float64.Float64.finite 2) 7).maxTokens
      = float64.Float64.finite (3 : Nat) ∧
    (allowSeq (NewTokenBucket (float64.ofInt (3 : Nat)) (float64.Float64.finite 2) 7)
        (List.replicate 5 (float64.ofInt 1, 7))).map Prod.fst
      = (List.range 5).map (fun i : Nat => decide (i + 1 ≤ 3)) ∧
    ((allowSeq (NewTokenBucket (float64.ofInt (3 : Nat)) (float64.Float64.finite 2) 7)
        (List.replicate 5 (float64.ofInt 1, 7))).map Prod.fst).count true = 3 ∧
    ((allowSeq (NewTokenBucket (float64.ofInt (3 : Nat)) (float64.Float64.finite 2) 7)
        (List.replicate 5 (float64.ofInt 1, 7))).map Prod.fst).count false = 5 - 3) :=
  ⟨by decide, by decide, C13_token_bucket_burst_float64 3 5 2 7 (by decide) (by decide)⟩

end token_bucket64
